import Mathlib

/-!
# Validator slashing engine (`modules/stake/slashing.go`)

A shallow embedding of the absence tracker and of the slashing engine of the
stake module, followed by the properties proved about them.

* Go's `int16` / `int64` fields are integers reduced by `wrapInt16` / `wrapInt64`
  after every increment.
* The tracker's `map[types.PubKey]*Absence` is a function from keys to optional
  entries; mutation is explicit state passing.
* The registry, the delegation ledger and the punishment log are lists inside
  `State`; a Go nil-pointer dereference is the result `none`.
-/

namespace Stake

/-! ## Basic types -/

/-- The type `types.PubKey`: only equality of keys is used by the slashing core. -/
abbrev PubKey := Nat

/-- The type `common.Address`. -/
abbrev Address := Nat

/-- The value returned by `utils.GetNow()`. -/
abbrev Timestamp := Nat

/-- Two's-complement reduction of an integer to Go's `int16`. -/
def wrapInt16 (n : Int) : Int := (n + 2 ^ 15) % 2 ^ 16 - 2 ^ 15

/-- Two's-complement reduction of an integer to Go's `int64`. -/
def wrapInt64 (n : Int) : Int := (n + 2 ^ 63) % 2 ^ 64 - 2 ^ 63

/-! ## Absence tracker -/

/-- The struct `Absence`: `count` is an `int16`, `lastBlockHeight` an `int64`. -/
structure Absence where
  count : Int
  lastBlockHeight : Int
deriving DecidableEq, Repr

/-- The method `(a *Absence) Accumulate()`: `a.count++` and `a.lastBlockHeight++`. -/
def Absence.Accumulate (a : Absence) : Absence :=
  { count := wrapInt16 (a.count + 1), lastBlockHeight := wrapInt64 (a.lastBlockHeight + 1) }

/-- The method `(a Absence) GetCount()`. -/
def Absence.GetCount (a : Absence) : Int := a.count

/-- The struct `AbsentValidators`: the Go map, as a function to optional entries
(`none` is the nil pointer a missing key reads as). -/
structure AbsentValidators where
  Validators : PubKey → Option Absence

/-- The constructor `NewAbsentValidators()`: the empty map. -/
def NewAbsentValidators : AbsentValidators := ⟨fun _ => none⟩

/-- The method `(av AbsentValidators) Add(pk, height)`. -/
def AbsentValidators.Add (av : AbsentValidators) (pk : PubKey) (height : Int) :
    AbsentValidators :=
  let absence : Absence :=
    match av.Validators pk with
    | none => { count := 1, lastBlockHeight := height }
    | some a => a.Accumulate
  ⟨fun k => if k = pk then some absence else av.Validators k⟩

/-- The method `(av AbsentValidators) Remove(pk)`: `delete(av.Validators, pk)`. -/
def AbsentValidators.Remove (av : AbsentValidators) (pk : PubKey) : AbsentValidators :=
  ⟨fun k => if k = pk then none else av.Validators k⟩

/-- The method `(av AbsentValidators) Clear(currentBlockHeight)`: the range loop
visits every entry once and deletes it when its stored height differs. -/
def AbsentValidators.Clear (av : AbsentValidators) (currentBlockHeight : Int) :
    AbsentValidators :=
  ⟨fun k =>
    match av.Validators k with
    | none => none
    | some v => if v.lastBlockHeight ≠ currentBlockHeight then none else some v⟩

/-- The method `(av AbsentValidators) Contains(pk)`. -/
def AbsentValidators.Contains (av : AbsentValidators) (pk : PubKey) : Bool :=
  match av.Validators pk with
  | some _ => true
  | none => false

/-- A round of `Add` calls at one height, one call per key of the list, in order. -/
def AbsentValidators.AddAll (av : AbsentValidators) (pks : List PubKey) (height : Int) :
    AbsentValidators :=
  pks.foldl (fun acc pk => acc.Add pk height) av

/-- The per-height protocol of the tracker: at each height of a run of consecutive
heights starting at `height`, the keys of that height are added, one `Add` call per
key, and then `Clear` is called at that height. -/
def runRounds (av : AbsentValidators) (height : Int) : List (List PubKey) → AbsentValidators
  | [] => av
  | pks :: rest => runRounds ((av.AddAll pks height).Clear height) (height + 1) rest

/-- The number of consecutive heights, ending at the last one, at which `pk` was
added. -/
def streak (pk : PubKey) (rounds : List (List PubKey)) : Nat :=
  (rounds.reverse.takeWhile (fun pks => decide (pk ∈ pks))).length

/-! ## Collaborators of the slashing engine -/

/-- Modelled from the spec: the validator record `Candidate` (its declaration is
not in `slashing.go`). It is identified by public key and owner address, has a
total shares value and an active flag (`"Y"` / `"N"`), and an update timestamp. -/
structure Candidate where
  PubKey : PubKey
  OwnerAddress : Address
  Shares : Int
  Active : String
  UpdatedAt : Timestamp
deriving DecidableEq, Repr

/-- Modelled from the spec: the record `Delegation` (its declaration is not in
`slashing.go`). It is identified by delegator address bound to a validator and has
a shares value and an accumulated slash-amount. -/
structure Delegation where
  DelegatorAddress : Address
  PubKey : PubKey
  shares : Int
  SlashAmount : Int
  UpdatedAt : Timestamp
deriving DecidableEq, Repr

/-- The struct literal `PunishHistory{PubKey, SlashingRatio, SlashAmount, Reason,
CreatedAt}` built by `slash` and `RemoveValidator`. -/
structure PunishHistory where
  PubKey : PubKey
  SlashingRatio : ℚ
  SlashAmount : Int
  Reason : String
  CreatedAt : Timestamp
deriving DecidableEq

/-- The persistent state the engine reads and writes through its collaborators:
validator registry, delegation ledger, punishment log (oldest record first). -/
structure State where
  candidates : List Candidate
  delegations : List Delegation
  punishHistory : List PunishHistory
deriving DecidableEq

/-- Modelled from the spec: what `utils.GetParams()`, `utils.GetNow()` and
`sdk.Int.MulRat` supply (none is in `slashing.go`): the base slashing ratio, the
maximum absence count (an `int16`), the clock reading, and the product of an
integer amount with a rational ratio, whose rounding the spec leaves open. -/
structure Env where
  SlashingRatio : ℚ
  MaxSlashingBlocks : Int
  now : Timestamp
  MulRat : Int → ℚ → Int

/-- The error kinds returned by the engine; `ErrBadValidatorAddr()` is the only one. -/
inductive Error where
  | ErrBadValidatorAddr
deriving DecidableEq, Repr

/-- The outcome of an engine call that returned: the state left behind and the
returned `err` (`none` is Go's `nil`). -/
structure Result where
  state : State
  err : Option Error
deriving DecidableEq

/-- Modelled from the spec: `GetCandidateByPubKey`, the registry's
lookup-by-pubkey, `none` when no validator has the key. -/
def GetCandidateByPubKey (s : State) (pubKey : PubKey) : Option Candidate :=
  s.candidates.find? (fun c => decide (c.PubKey = pubKey))

/-- Modelled from the spec: `GetCandidateByAddress`, the registry's
lookup-by-address, `none` when no validator has the owner address. -/
def GetCandidateByAddress (s : State) (address : Address) : Option Candidate :=
  s.candidates.find? (fun c => decide (c.OwnerAddress = address))

/-- Modelled from the spec: `updateCandidate`, the registry's persist-update: the
stored record of the validator identified by the public key and owner address of
`c` becomes `c`. -/
def updateCandidate (s : State) (c : Candidate) : State :=
  { s with candidates := s.candidates.map (fun e =>
      if e.PubKey = c.PubKey ∧ e.OwnerAddress = c.OwnerAddress then c else e) }

/-- Modelled from the spec: `GetDelegationsByPubKey`, the ledger's
list-by-validator-pubkey. -/
def GetDelegationsByPubKey (s : State) (pubKey : PubKey) : List Delegation :=
  s.delegations.filter (fun d => decide (d.PubKey = pubKey))

/-- Modelled from the spec: `UpdateDelegation`, the ledger's persist-update: the
stored record of the delegation identified by the delegator address and validator
key of `d` becomes `d`. -/
def UpdateDelegation (s : State) (d : Delegation) : State :=
  { s with delegations := s.delegations.map (fun e =>
      if e.DelegatorAddress = d.DelegatorAddress ∧ e.PubKey = d.PubKey then d else e) }

/-- Modelled from the spec: `savePunishHistory`, the punishment log's append. -/
def savePunishHistory (s : State) (p : PunishHistory) : State :=
  { s with punishHistory := s.punishHistory ++ [p] }

/-- Modelled from the spec: `(*Candidate).ParseShares`, the validator's total shares. -/
def Candidate.ParseShares (c : Candidate) : Int := c.Shares

/-- Modelled from the spec: `(*Candidate).AddShares`, adding to the total shares. -/
def Candidate.AddShares (c : Candidate) (value : Int) : Candidate :=
  { c with Shares := c.Shares + value }

/-- Modelled from the spec: `(*Delegation).Shares`, the delegation's shares value. -/
def Delegation.Shares (d : Delegation) : Int := d.shares

/-- Modelled from the spec: `(*Delegation).AddSlashAmount`: the amount is deducted
from the delegation's recorded shares and accumulated into its slashed amount. -/
def Delegation.AddSlashAmount (d : Delegation) (value : Int) : Delegation :=
  { d with shares := d.shares - value, SlashAmount := d.SlashAmount + value }

/-- Modelled from the spec: `common.HexToAddress` applied to a validator's
`OwnerAddress`, which yields the address the registry stores for it. -/
def HexToAddress (ownerAddress : Address) : Address := ownerAddress

/-! ## Slashing engine -/

/-- The function `slashDelegator(d, validatorAddress, amount)`; `none` when
`GetCandidateByAddress` returns nil and `val.AddShares` dereferences it. -/
def slashDelegator (env : Env) (d : Delegation) (validatorAddress : Address) (amount : Int)
    (s : State) : Option State :=
  let now := env.now
  let d1 : Delegation := { d.AddSlashAmount amount with UpdatedAt := now }
  let s1 := UpdateDelegation s d1
  match GetCandidateByAddress s1 validatorAddress with
  | none => none
  | some val =>
    let val1 : Candidate := { val.AddShares (-amount) with UpdatedAt := now }
    some (updateCandidate s1 val1)

/-- The `for _, d := range delegations` loop of `slash`, threading the state and
`totalDeduction`. The statement `totalDeduction.Add(slash)` is an expression
statement: like `Mul`, `MulRat` and `Neg` in the same file, `Add` returns its
result, and the loop drops it, so `totalDeduction` keeps the value it had. -/
def slashLoop (env : Env) (slashingRatio : ℚ) (validatorAddress : Address) :
    List Delegation → State → Int → Option (State × Int)
  | [], s, totalDeduction => some (s, totalDeduction)
  | d :: ds, s, totalDeduction =>
    let slash := env.MulRat d.Shares slashingRatio
    match slashDelegator env d validatorAddress slash s with
    | none => none
    | some s1 =>
      let _ := totalDeduction + slash
      slashLoop env slashingRatio validatorAddress ds s1 totalDeduction

/-- The function `slash(pubKey, reason, slashingRatio)`. -/
def slash (env : Env) (pubKey : PubKey) (reason : String) (slashingRatio : ℚ) (s : State) :
    Option Result :=
  match GetCandidateByPubKey s pubKey with
  | none => some ⟨s, some Error.ErrBadValidatorAddr⟩
  | some v =>
    if v.ParseShares ≤ 0 then some ⟨s, none⟩
    else
      match slashLoop env slashingRatio (HexToAddress v.OwnerAddress)
          (GetDelegationsByPubKey s v.PubKey) s 0 with
      | none => none
      | some (s1, totalDeduction) =>
        some ⟨savePunishHistory s1
          { PubKey := pubKey, SlashingRatio := slashingRatio, SlashAmount := totalDeduction,
            Reason := reason, CreatedAt := env.now }, none⟩

/-- The function `RemoveValidator(pubKey)`. -/
def RemoveValidator (env : Env) (pubKey : PubKey) (s : State) : Result :=
  match GetCandidateByPubKey s pubKey with
  | none => ⟨s, some Error.ErrBadValidatorAddr⟩
  | some v =>
    let v1 : Candidate := { v with Active := "N", UpdatedAt := env.now }
    let s1 := updateCandidate s v1
    ⟨savePunishHistory s1
      { PubKey := pubKey, SlashingRatio := 0, SlashAmount := 0,
        Reason := "Absent for up to 12 consecutive blocks", CreatedAt := env.now }, none⟩

/-- The function `SlashByzantineValidator(pubKey)`. -/
def SlashByzantineValidator (env : Env) (pubKey : PubKey) (s : State) : Option Result :=
  slash env pubKey "Byzantine validator" env.SlashingRatio s

/-- The function `SlashAbsentValidator(pubKey, absence)`: two independent `if`
statements, the second overwriting `err`. -/
def SlashAbsentValidator (env : Env) (pubKey : PubKey) (absence : Absence) (s : State) :
    Option Result :=
  let r0 : Option Result :=
    if absence.GetCount ≤ env.MaxSlashingBlocks then
      slash env pubKey "Absent validator" env.SlashingRatio s
    else some ⟨s, none⟩
  match r0 with
  | none => none
  | some r1 =>
    if absence.GetCount = env.MaxSlashingBlocks then
      some (RemoveValidator env pubKey r1.state)
    else some r1

/-- The function `SlashBadProposer(pubKey)`. -/
def SlashBadProposer (env : Env) (pubKey : PubKey) (s : State) : Option Result :=
  let slashingRatio := env.SlashingRatio * (env.MaxSlashingBlocks : ℚ)
  match slash env pubKey "Bad block proposer" slashingRatio s with
  | none => none
  | some r =>
    if r.err ≠ none then some r
    else some (RemoveValidator env pubKey r.state)

/-- The function `slash` with the range loop visiting the validator's delegations in
the order of the list `delegations` instead of the order in which
`GetDelegationsByPubKey` returns them. -/
def slashInOrder (env : Env) (pubKey : PubKey) (reason : String) (slashingRatio : ℚ)
    (delegations : List Delegation) (s : State) : Option Result :=
  match GetCandidateByPubKey s pubKey with
  | none => some ⟨s, some Error.ErrBadValidatorAddr⟩
  | some v =>
    if v.ParseShares ≤ 0 then some ⟨s, none⟩
    else
      match slashLoop env slashingRatio (HexToAddress v.OwnerAddress) delegations s 0 with
      | none => none
      | some (s1, totalDeduction) =>
        some ⟨savePunishHistory s1
          { PubKey := pubKey, SlashingRatio := slashingRatio, SlashAmount := totalDeduction,
            Reason := reason, CreatedAt := env.now }, none⟩

/-! ## Vocabulary of the statements -/

/-- The per-delegation deductions `d.Shares().MulRat(slashingRatio)` of `slash`, in
the order of the delegation list. -/
def deductions (env : Env) (slashingRatio : ℚ) (ds : List Delegation) : List Int :=
  ds.map (fun d => env.MulRat d.Shares slashingRatio)

/-- The record `slashDelegator` persists for delegation `d` when `slash` runs with
the given ratio. -/
def slashedDelegation (env : Env) (slashingRatio : ℚ) (d : Delegation) : Delegation :=
  { d.AddSlashAmount (env.MulRat d.Shares slashingRatio) with UpdatedAt := env.now }

/-- The identity of a delegation in the ledger: delegator address and validator key. -/
def Delegation.key (d : Delegation) : Address × Stake.PubKey := (d.DelegatorAddress, d.PubKey)

/-- The validator record after its shares were lowered by `total` at the time of the
call. -/
def debited (env : Env) (val : Candidate) (total : Int) : Candidate :=
  { val with Shares := val.Shares - total, UpdatedAt := env.now }

/-- The record `RemoveValidator` appends to the punishment log. -/
def removalRecord (env : Env) (pubKey : PubKey) : PunishHistory :=
  { PubKey := pubKey, SlashingRatio := 0, SlashAmount := 0,
    Reason := "Absent for up to 12 consecutive blocks", CreatedAt := env.now }

/-- The record `slash` appends to the punishment log for a total deduction. -/
def slashRecord (env : Env) (pubKey : PubKey) (reason : String) (slashingRatio : ℚ)
    (total : Int) : PunishHistory :=
  { PubKey := pubKey, SlashingRatio := slashingRatio, SlashAmount := total,
    Reason := reason, CreatedAt := env.now }

/-- Whether the registry resolves the public key to a validator whose active flag
is `"N"`. -/
def isInactive (s : State) (pubKey : PubKey) : Bool :=
  match GetCandidateByPubKey s pubKey with
  | some v => decide (v.Active = "N")
  | none => false

/-! ## Concrete data used by the examples -/

/-- Truncating product, one admissible `MulRat`. -/
def mulRatFloor (i : Int) (r : ℚ) : Int := (i * r.num) / (r.den : Int)

/-- Parameters of the scenarios: base ratio 1/10, at most 12 absences. -/
def env0 : Env :=
  { SlashingRatio := 1 / 10, MaxSlashingBlocks := 12, now := 77, MulRat := mulRatFloor }

/-- One active validator with three delegations of shares 100, 50 and 10. -/
def s0 : State :=
  { candidates := [⟨1, 11, 160, "Y", 0⟩, ⟨2, 22, 40, "Y", 0⟩],
    delegations := [⟨11, 1, 100, 0, 0⟩, ⟨31, 1, 50, 0, 0⟩, ⟨32, 2, 40, 0, 0⟩, ⟨33, 1, 10, 0, 0⟩],
    punishHistory := [] }

/-- A validator whose stake is exhausted, with its fully slashed self-delegation. -/
def sZero : State :=
  { candidates := [⟨1, 11, 0, "Y", 0⟩],
    delegations := [⟨11, 1, 0, 100, 0⟩],
    punishHistory := [] }

/-- The state `s0` after validator 1 was removed at time 5. -/
def sDown : State :=
  { candidates := [⟨1, 11, 160, "N", 5⟩, ⟨2, 22, 40, "Y", 0⟩],
    delegations := [⟨11, 1, 100, 0, 0⟩, ⟨31, 1, 50, 0, 0⟩, ⟨32, 2, 40, 0, 0⟩, ⟨33, 1, 10, 0, 0⟩],
    punishHistory := [⟨1, 0, 0, "Absent for up to 12 consecutive blocks", 5⟩] }

/-- A tracker holding one entry at the top of the `int16` range. -/
def avFull : AbsentValidators :=
  ⟨fun k => if k = 1 then some ⟨32767, 5⟩ else none⟩

/-- A tracker with a stale entry for key 1 and an entry for key 2 already at height 10. -/
def avStale : AbsentValidators :=
  ⟨fun k => if k = 1 then some ⟨1, 5⟩ else if k = 2 then some ⟨1, 10⟩ else none⟩

/-- A tracker as `Clear 9` leaves it: every entry was last seen at height 9. -/
def avNine : AbsentValidators :=
  ⟨fun k => if k = 1 then some ⟨3, 9⟩ else if k = 2 then some ⟨1, 9⟩ else none⟩

/-! ## Absence tracker: lemmas -/

/-- An integer inside the `int16` range is its own reduction. -/
theorem wrapInt16_of_range (n : Int) (h1 : -2 ^ 15 ≤ n) (h2 : n < 2 ^ 15) : wrapInt16 n = n := by
  unfold wrapInt16
  rw [Int.emod_eq_of_lt (by omega) (by omega)]
  omega

/-- An integer inside the `int64` range is its own reduction. -/
theorem wrapInt64_of_range (n : Int) (h1 : -2 ^ 63 ≤ n) (h2 : n < 2 ^ 63) : wrapInt64 n = n := by
  unfold wrapInt64
  rw [Int.emod_eq_of_lt (by omega) (by omega)]
  omega

/-- The entry `Add` stores under the key it is called with. -/
theorem Add_same (av : AbsentValidators) (pk : PubKey) (h : Int) :
    (av.Add pk h).Validators pk =
      some (match av.Validators pk with
        | none => { count := 1, lastBlockHeight := h }
        | some a => a.Accumulate) := by
  simp [AbsentValidators.Add]

/-- The call `Add pk h` leaves every other key alone. -/
theorem Add_other (av : AbsentValidators) (pk k : PubKey) (h : Int) (hk : k ≠ pk) :
    (av.Add pk h).Validators k = av.Validators k := by
  simp [AbsentValidators.Add, hk]

/-- The query `Contains` is true exactly on the keys that have an entry. -/
theorem Contains_iff (av : AbsentValidators) (k : PubKey) :
    av.Contains k = true ↔ ∃ a, av.Validators k = some a := by
  unfold AbsentValidators.Contains
  cases av.Validators k <;> simp

/-- A round of `Add` calls unfolds one call at a time. -/
theorem AddAll_cons (av : AbsentValidators) (p : PubKey) (ps : List PubKey) (h : Int) :
    av.AddAll (p :: ps) h = (av.Add p h).AddAll ps h := rfl

/-- A round of `Add` calls leaves the keys outside the round alone. -/
theorem AddAll_not_mem (ps : List PubKey) (av : AbsentValidators) (h : Int) (k : PubKey)
    (hk : k ∉ ps) : (av.AddAll ps h).Validators k = av.Validators k := by
  induction ps generalizing av with
  | nil => rfl
  | cons p ps ih =>
    have hne : k ≠ p := fun e => hk (e ▸ List.mem_cons_self _ _)
    have hnm : k ∉ ps := fun e => hk (List.mem_cons_of_mem _ e)
    rw [AddAll_cons, ih _ hnm, Add_other _ _ _ _ hne]

/-- In a duplicate-free round every key of the round is added exactly once. -/
theorem AddAll_mem (ps : List PubKey) (av : AbsentValidators) (h : Int) (k : PubKey)
    (hnd : ps.Nodup) (hk : k ∈ ps) :
    (av.AddAll ps h).Validators k = (av.Add k h).Validators k := by
  induction ps generalizing av with
  | nil => cases hk
  | cons p ps ih =>
    have hp : p ∉ ps := (List.nodup_cons.mp hnd).1
    have hps : ps.Nodup := (List.nodup_cons.mp hnd).2
    rw [AddAll_cons]
    by_cases hkp : k = p
    · subst hkp
      exact AddAll_not_mem ps _ h k hp
    · have hk2 : k ∈ ps := by
        rcases List.mem_cons.mp hk with e | e
        · exact absurd e hkp
        · exact e
      rw [ih _ hps hk2, Add_same, Add_same, Add_other _ _ _ _ hkp]

/-- The keys tracked after `Clear h` are those tracked with stored height `h`. -/
theorem Clear_Contains_iff (av : AbsentValidators) (h : Int) (k : PubKey) :
    (av.Clear h).Contains k = true ↔ ∃ a, av.Validators k = some a ∧ a.lastBlockHeight = h := by
  rw [Contains_iff]
  simp only [AbsentValidators.Clear]
  cases hk : av.Validators k with
  | none => simp
  | some a =>
    by_cases hh : a.lastBlockHeight = h
    · simp [hh]
    · simp [hh]

/-! ## Absence tracker: claims -/

/-- C7, as stated, fails at the top of the integer ranges: the entry `(32767, 5)`
accumulates to count `-32768`, which is not `32767 + 1`; and two `Add` calls on a
fresh key, the first at height `2 ^ 63 - 1`, leave `lastBlockHeight = -2 ^ 63`,
which is not `(2 ^ 63 - 1) + 1`. -/
theorem C7_counterexample :
    ((avFull.Add 1 9).Validators 1 = some ⟨-32768, 6⟩ ∧ (-32768 : Int) ≠ 32767 + 1) ∧
    (((NewAbsentValidators.Add 1 9223372036854775807).Add 1 0).Validators 1 =
        some ⟨2, -9223372036854775808⟩ ∧
      (-9223372036854775808 : Int) ≠ 9223372036854775807 + 1) := by
  refine ⟨⟨?_, by decide⟩, ⟨?_, by decide⟩⟩
  · simp [AbsentValidators.Add, avFull, Absence.Accumulate, wrapInt16, wrapInt64]
  · simp [AbsentValidators.Add, NewAbsentValidators, Absence.Accumulate, wrapInt16, wrapInt64]

/-- C7 (amended): `Add pk h` on an untracked key creates the entry `(1, h)`; on a key
tracked with `(c, l)` it stores `(c + 1, l + 1)` in wrapping `int16` / `int64`
arithmetic, whatever `h` is, which is exactly `c + 1` for an `int16` `c` below
`32767` and exactly `l + 1` for an `int64` `l` below `2 ^ 63 - 1`. Afterwards
`Contains pk` holds and every other key has the entry it had. -/
theorem C7_Add (av : AbsentValidators) (pk : PubKey) (h : Int) :
    (av.Validators pk = none → (av.Add pk h).Validators pk = some ⟨1, h⟩) ∧
    (∀ c l : Int, av.Validators pk = some ⟨c, l⟩ →
      (av.Add pk h).Validators pk = some ⟨wrapInt16 (c + 1), wrapInt64 (l + 1)⟩ ∧
      (-2 ^ 15 ≤ c → c < 2 ^ 15 - 1 → wrapInt16 (c + 1) = c + 1) ∧
      (-2 ^ 63 ≤ l → l < 2 ^ 63 - 1 → wrapInt64 (l + 1) = l + 1)) ∧
    (av.Add pk h).Contains pk = true ∧
    (∀ k, k ≠ pk → (av.Add pk h).Validators k = av.Validators k) := by
  refine ⟨?_, ?_, ?_, ?_⟩
  · intro hn
    rw [Add_same, hn]
  · intro c l hs
    refine ⟨?_, ?_, ?_⟩
    · rw [Add_same, hs]
      rfl
    · intro h1 h2
      exact wrapInt16_of_range _ (by omega) (by omega)
    · intro h1 h2
      exact wrapInt64_of_range _ (by omega) (by omega)
  · rw [Contains_iff, Add_same]
    exact ⟨_, rfl⟩
  · intro k hk
    exact Add_other av pk k h hk

/-- C7 at concrete trackers: a fresh key gets `(1, 10)`; the entry `(3, 9)` becomes
`(4, 10)` under `Add 1 1000`; key 2 keeps its entry. -/
theorem C7_Add_witness :
    (NewAbsentValidators.Add 1 10).Validators 1 = some ⟨1, 10⟩ ∧
    (avNine.Add 1 1000).Validators 1 = some ⟨3 + 1, 9 + 1⟩ ∧
    (avNine.Add 1 1000).Contains 1 = true ∧
    (avNine.Add 1 1000).Validators 2 = avNine.Validators 2 := by
  have h3 := (C7_Add avNine 1 1000).2.1 3 9 (by simp [avNine])
  refine ⟨(C7_Add NewAbsentValidators 1 10).1 rfl, ?_, (C7_Add avNine 1 1000).2.2.1,
    (C7_Add avNine 1 1000).2.2.2 2 (by decide)⟩
  rw [h3.1, h3.2.1 (by decide) (by decide), h3.2.2 (by decide) (by decide)]

/-- C8: after `Clear h` a key is tracked exactly when it was tracked with
`lastBlockHeight = h`, and every entry present afterwards is the entry the key had
before (same count, same height), so no key appears. -/
theorem C8_Clear (av : AbsentValidators) (h : Int) (k : PubKey) :
    ((av.Clear h).Contains k = true ↔
      ∃ a, av.Validators k = some a ∧ a.lastBlockHeight = h) ∧
    (∀ a, (av.Clear h).Validators k = some a → av.Validators k = some a) ∧
    (∀ a, av.Validators k = some a → a.lastBlockHeight = h →
      (av.Clear h).Validators k = some a) ∧
    (∀ a, av.Validators k = some a → a.lastBlockHeight ≠ h →
      (av.Clear h).Validators k = none) := by
  rw [Contains_iff]
  simp only [AbsentValidators.Clear]
  cases hk : av.Validators k with
  | none => simp
  | some a =>
    by_cases hh : a.lastBlockHeight = h
    · simp [hh]
    · simp [hh]

/-- C8 at a concrete tracker: `Clear 10` keeps key 2 (height 10) and drops key 1
(height 5). -/
theorem C8_Clear_witness :
    (avStale.Clear 10).Validators 2 = some ⟨1, 10⟩ ∧ (avStale.Clear 10).Validators 1 = none :=
  ⟨(C8_Clear avStale 10 2).2.2.1 ⟨1, 10⟩ (by simp [avStale]) rfl,
   (C8_Clear avStale 10 1).2.2.2 ⟨1, 5⟩ (by simp [avStale]) (by decide)⟩

/-- C9, as stated, fails on an arbitrary tracker: after `Add 1 10` and `Clear 10`
on `avStale`, key 1 (added at height 10) is dropped because its stored height went
from 5 to 6, and key 2 (not added in this round) survives because its stored height
was already 10. -/
theorem C9_counterexample :
    (((avStale.AddAll [1] 10).Clear 10).Contains 1 = false ∧ 1 ∈ [1]) ∧
    (((avStale.AddAll [1] 10).Clear 10).Contains 2 = true ∧ 2 ∉ [1]) := by
  refine ⟨⟨?_, by decide⟩, ⟨?_, by decide⟩⟩
  · simp [AbsentValidators.AddAll, AbsentValidators.Add, AbsentValidators.Clear,
      AbsentValidators.Contains, avStale, Absence.Accumulate, wrapInt16, wrapInt64]
  · simp [AbsentValidators.AddAll, AbsentValidators.Add, AbsentValidators.Clear,
      AbsentValidators.Contains, avStale]

/-- C9 (amended): when every entry of the tracker was last seen at height `h - 1`
(the tracker is as `Clear (h - 1)` left it, or empty), `h` is an `int64`, and each
key of a duplicate-free list is added once by `Add pk h`, then after `Clear h` the
tracked keys are exactly the keys of the list. -/
theorem C9_round (av : AbsentValidators) (h : Int) (pks : List PubKey)
    (hrange : -2 ^ 63 ≤ h ∧ h < 2 ^ 63)
    (hprev : ∀ k a, av.Validators k = some a → a.lastBlockHeight + 1 = h)
    (hnd : pks.Nodup) (k : PubKey) :
    ((av.AddAll pks h).Clear h).Contains k = true ↔ k ∈ pks := by
  rw [Clear_Contains_iff]
  by_cases hk : k ∈ pks
  · simp only [hk, iff_true]
    rw [AddAll_mem pks av h k hnd hk, Add_same]
    cases hv : av.Validators k with
    | none => exact ⟨_, rfl, rfl⟩
    | some a =>
      refine ⟨_, rfl, ?_⟩
      show wrapInt64 (a.lastBlockHeight + 1) = h
      rw [hprev k a hv]
      exact wrapInt64_of_range h hrange.1 hrange.2
  · simp only [hk, iff_false]
    rw [AddAll_not_mem pks av h k hk]
    rintro ⟨a, ha, hh⟩
    have := hprev k a ha
    omega

/-- C9 (amended) at a concrete tracker: from `avNine`, adding keys 1 and 3 at height
10 and clearing at 10 keeps key 1 and drops key 2. -/
theorem C9_round_witness :
    (((avNine.AddAll [1, 3] 10).Clear 10).Contains 1 = true ↔ 1 ∈ [1, 3]) ∧
    (((avNine.AddAll [1, 3] 10).Clear 10).Contains 2 = true ↔ 2 ∈ [1, 3]) := by
  have hprev : ∀ k a, avNine.Validators k = some a → a.lastBlockHeight + 1 = 10 := by
    intro k a hka
    simp only [avNine] at hka
    split at hka
    · cases hka; rfl
    · split at hka
      · cases hka; rfl
      · cases hka
  exact ⟨C9_round avNine 10 [1, 3] (by decide) hprev (by decide) 1,
    C9_round avNine 10 [1, 3] (by decide) hprev (by decide) 2⟩

/-- C10: after `Remove pk`, `Contains pk` is false and every other key has the entry
it had; removing an untracked key leaves the tracker as it was; `Contains` returns
true exactly when the key has an entry (it only reads the tracker). -/
theorem C10_Remove_Contains (av : AbsentValidators) (pk : PubKey) :
    (av.Remove pk).Contains pk = false ∧
    (∀ k, k ≠ pk → (av.Remove pk).Validators k = av.Validators k) ∧
    (av.Validators pk = none → av.Remove pk = av) ∧
    (∀ k, av.Contains k = true ↔ ∃ a, av.Validators k = some a) := by
  refine ⟨?_, ?_, ?_, ?_⟩
  · simp [AbsentValidators.Remove, AbsentValidators.Contains]
  · intro k hk
    simp [AbsentValidators.Remove, hk]
  · intro hn
    cases av with
    | mk f =>
      simp only [AbsentValidators.Remove, AbsentValidators.mk.injEq]
      funext k
      by_cases hk : k = pk
      · subst hk
        simp only [if_true]
        exact hn.symm
      · simp [hk]
  · intro k
    exact Contains_iff av k

/-- C10 at concrete trackers: removing key 1 from `avNine` untracks it and keeps key
2; removing the untracked key 7 changes nothing. -/
theorem C10_Remove_Contains_witness :
    (avNine.Remove 1).Contains 1 = false ∧
    (avNine.Remove 1).Validators 2 = avNine.Validators 2 ∧
    avNine.Remove 7 = avNine :=
  ⟨(C10_Remove_Contains avNine 1).1,
   (C10_Remove_Contains avNine 1).2.1 2 (by decide),
   (C10_Remove_Contains avNine 7).2.2.1 (by simp [avNine])⟩

/-! ## Slashing engine: lemmas -/

/-- Searching a mapped list, when the map does not change the searched predicate. -/
theorem find?_map_preserve {α : Type} (p : α → Bool) (f : α → α) (l : List α)
    (hf : ∀ e, p (f e) = p e) : (l.map f).find? p = (l.find? p).map f := by
  induction l with
  | nil => rfl
  | cons x xs ih =>
    simp only [List.map_cons, List.find?_cons, hf x]
    cases p x with
    | true => rfl
    | false => exact ih

/-- Two first-match searches that satisfy each other's predicate find one element. -/
theorem find?_unique {α : Type} (p q : α → Bool) (l : List α) (x y : α)
    (hx : l.find? p = some x) (hy : l.find? q = some y) (hqx : q x = true) (hpy : p y = true) :
    x = y := by
  induction l with
  | nil => cases hx
  | cons e es ih =>
    simp only [List.find?_cons] at hx hy
    cases hpe : p e with
    | true =>
      rw [hpe] at hx
      cases hx
      rw [hqx] at hy
      cases hy
      rfl
    | false =>
      rw [hpe] at hx
      cases hqe : q e with
      | true =>
        rw [hqe] at hy
        cases hy
        rw [hpe] at hpy
        cases hpy
      | false =>
        rw [hqe] at hy
        exact ih hx hy

/-- A found element that satisfies a second predicate makes the second search succeed. -/
theorem find?_exists_of {α : Type} (p q : α → Bool) (l : List α) (x : α)
    (hx : l.find? p = some x) (hqx : q x = true) : ∃ y, l.find? q = some y := by
  have hmem : x ∈ l := List.mem_of_find?_eq_some hx
  have : (l.find? q).isSome = true := by
    rw [List.find?_isSome]
    exact ⟨x, hmem, hqx⟩
  exact Option.isSome_iff_exists.mp this

/-- The validator resolved by a public key carries that key. -/
theorem GetCandidateByPubKey_spec (s : State) (pk : PubKey) (v : Candidate)
    (h : GetCandidateByPubKey s pk = some v) : v.PubKey = pk := by
  have := List.find?_some h
  simpa using this

/-- The validator resolved by an owner address carries that address. -/
theorem GetCandidateByAddress_spec (s : State) (a : Address) (v : Candidate)
    (h : GetCandidateByAddress s a = some v) : v.OwnerAddress = a := by
  have := List.find?_some h
  simpa using this

/-- Lookup by public key after `updateCandidate`. -/
theorem GetCandidateByPubKey_update (s : State) (c : Candidate) (pk : PubKey) :
    GetCandidateByPubKey (updateCandidate s c) pk =
      (GetCandidateByPubKey s pk).map (fun e =>
        if e.PubKey = c.PubKey ∧ e.OwnerAddress = c.OwnerAddress then c else e) := by
  unfold GetCandidateByPubKey updateCandidate
  apply find?_map_preserve
  intro e
  by_cases hc : e.PubKey = c.PubKey ∧ e.OwnerAddress = c.OwnerAddress
  · show decide ((if e.PubKey = c.PubKey ∧ e.OwnerAddress = c.OwnerAddress then c else e).PubKey = pk)
        = decide (e.PubKey = pk)
    rw [if_pos hc, hc.1]
  · simp only [if_neg hc]

/-- Lookup by owner address after `updateCandidate`. -/
theorem GetCandidateByAddress_update (s : State) (c : Candidate) (a : Address) :
    GetCandidateByAddress (updateCandidate s c) a =
      (GetCandidateByAddress s a).map (fun e =>
        if e.PubKey = c.PubKey ∧ e.OwnerAddress = c.OwnerAddress then c else e) := by
  unfold GetCandidateByAddress updateCandidate
  apply find?_map_preserve
  intro e
  by_cases hc : e.PubKey = c.PubKey ∧ e.OwnerAddress = c.OwnerAddress
  · show decide ((if e.PubKey = c.PubKey ∧ e.OwnerAddress = c.OwnerAddress then c else e).OwnerAddress
        = a) = decide (e.OwnerAddress = a)
    rw [if_pos hc, hc.2]
  · simp only [if_neg hc]

/-- The state `slashDelegator` leaves when the address resolves to `val`. -/
theorem slashDelegator_eq (env : Env) (d : Delegation) (a : Address) (amt : Int) (s : State)
    (val : Candidate) (h : GetCandidateByAddress s a = some val) :
    slashDelegator env d a amt s =
      some (updateCandidate
        (UpdateDelegation s { d.AddSlashAmount amt with UpdatedAt := env.now })
        { val.AddShares (-amt) with UpdatedAt := env.now }) := by
  have h1 : GetCandidateByAddress
      (UpdateDelegation s { d.AddSlashAmount amt with UpdatedAt := env.now }) a = some val := h
  simp only [slashDelegator, h1]

/-- Invariant of the loop of `slash`: it terminates without a nil dereference, leaves
`totalDeduction` and the log alone, keeps the validator's address and active flag, and,
when the address resolves to the validator itself, lowers its shares by the sum of
the deductions. -/
theorem slashLoop_spec (env : Env) (ratio : ℚ) (pk : PubKey) (a : Address) :
    ∀ (ds : List Delegation) (s : State) (t : Int) (v : Candidate),
      GetCandidateByPubKey s pk = some v → v.OwnerAddress = a →
      ∃ s' v', slashLoop env ratio a ds s t = some (s', t) ∧
        s'.punishHistory = s.punishHistory ∧
        GetCandidateByPubKey s' pk = some v' ∧ v'.OwnerAddress = a ∧ v'.Active = v.Active ∧
        (GetCandidateByAddress s a = some v →
          GetCandidateByAddress s' a = some v' ∧
          v'.Shares = v.Shares - (deductions env ratio ds).sum) := by
  intro ds
  induction ds with
  | nil =>
    intro s t v hv ha
    exact ⟨s, v, by simp [slashLoop, deductions], rfl, hv, ha, rfl, fun h => ⟨h, by simp [deductions]⟩⟩
  | cons d ds ih =>
    intro s t v hv ha
    have hvpk : v.PubKey = pk := GetCandidateByPubKey_spec s pk v hv
    obtain ⟨val, hval⟩ := find?_exists_of _ (fun c => decide (c.OwnerAddress = a)) _ v hv
      (by simp [ha])
    have hval' : GetCandidateByAddress s a = some val := hval
    have hvala : val.OwnerAddress = a := GetCandidateByAddress_spec s a val hval'
    have hstep := slashDelegator_eq env d a (env.MulRat d.Shares ratio) s val hval'
    generalize hs1 : updateCandidate
        (UpdateDelegation s { d.AddSlashAmount (env.MulRat d.Shares ratio) with UpdatedAt := env.now })
        { val.AddShares (-(env.MulRat d.Shares ratio)) with UpdatedAt := env.now } = s1 at hstep
    generalize hval1 : ({ val.AddShares (-(env.MulRat d.Shares ratio)) with
        UpdatedAt := env.now } : Candidate) = val1 at hs1
    have hk1 : val1.PubKey = val.PubKey := by rw [← hval1]; rfl
    have hk2 : val1.OwnerAddress = val.OwnerAddress := by rw [← hval1]; rfl
    have hk3 : val1.Active = val.Active := by rw [← hval1]; rfl
    have hk4 : val1.Shares = val.Shares - env.MulRat d.Shares ratio := by
      rw [← hval1]; simp [Candidate.AddShares]; ring
    have hpk1 : GetCandidateByPubKey s1 pk = some
        (if v.PubKey = val1.PubKey ∧ v.OwnerAddress = val1.OwnerAddress then val1 else v) := by
      rw [← hs1, GetCandidateByPubKey_update]
      have : GetCandidateByPubKey
          (UpdateDelegation s { d.AddSlashAmount (env.MulRat d.Shares ratio) with UpdatedAt := env.now })
          pk = some v := hv
      rw [this]; rfl
    have hph : s1.punishHistory = s.punishHistory := by rw [← hs1]; rfl
    have hsame : v.PubKey = val1.PubKey ∧ v.OwnerAddress = val1.OwnerAddress → v = val := by
      intro hc
      exact find?_unique _ _ _ v val hv hval (by simp [ha])
        (by simp [← hvpk, hc.1, hk1])
    obtain ⟨s', v', hloop, hph', hpk', ha', hact', hres'⟩ :=
      ih s1 t
        (if v.PubKey = val1.PubKey ∧ v.OwnerAddress = val1.OwnerAddress then val1 else v)
        hpk1 (by
          by_cases hc : v.PubKey = val1.PubKey ∧ v.OwnerAddress = val1.OwnerAddress
          · rw [if_pos hc, hk2, hvala]
          · rw [if_neg hc, ha])
    refine ⟨s', v', ?_, ?_, hpk', ha', ?_, ?_⟩
    · simp only [slashLoop, hstep, hloop]
    · rw [hph', hph]
    · rw [hact']
      by_cases hc : v.PubKey = val1.PubKey ∧ v.OwnerAddress = val1.OwnerAddress
      · rw [if_pos hc, hk3, hsame hc]
      · rw [if_neg hc]
    · intro hres
      have hvv : val = v := by rw [hres] at hval'; exact (Option.some.inj hval').symm
      have hc : v.PubKey = val1.PubKey ∧ v.OwnerAddress = val1.OwnerAddress := by
        rw [hk1, hk2, hvv]; exact ⟨rfl, rfl⟩
      rw [if_pos hc] at hres'
      have hadr1 : GetCandidateByAddress s1 a = some val1 := by
        rw [← hs1, GetCandidateByAddress_update]
        have : GetCandidateByAddress
            (UpdateDelegation s { d.AddSlashAmount (env.MulRat d.Shares ratio) with UpdatedAt := env.now })
            a = some v := hres
        rw [this]
        simp only [Option.map_some', if_pos hc]
      obtain ⟨h1, h2⟩ := hres' hadr1
      refine ⟨h1, ?_⟩
      rw [h2, hk4, hvv]
      simp only [deductions, List.map_cons, List.sum_cons]
      ring

/-- The test of `UpdateDelegation` is equality of delegation identities. -/
theorem key_eq_iff (e d : Delegation) :
    (e.DelegatorAddress = d.DelegatorAddress ∧ e.PubKey = d.PubKey) ↔ e.key = d.key := by
  simp [Delegation.key]

/-- Slashing a delegation keeps its identity. -/
theorem slashedDelegation_key (env : Env) (ratio : ℚ) (d : Delegation) :
    (slashedDelegation env ratio d).key = d.key := rfl

/-- The ledger `slashDelegator` leaves. -/
theorem slashDelegator_delegations (env : Env) (d : Delegation) (a : Address) (amt : Int)
    (s s1 : State) (h : slashDelegator env d a amt s = some s1) :
    s1.delegations = s.delegations.map (fun e =>
      if e.DelegatorAddress = d.DelegatorAddress ∧ e.PubKey = d.PubKey
      then { d.AddSlashAmount amt with UpdatedAt := env.now } else e) := by
  unfold slashDelegator at h
  simp only at h
  split at h
  · cases h
  · cases h
    rfl

/-- The ledger the loop of `slash` leaves, one `UpdateDelegation` per delegation. -/
theorem slashLoop_delegations (env : Env) (ratio : ℚ) (a : Address) :
    ∀ (ds : List Delegation) (s : State) (t : Int) (s' : State) (t' : Int),
      slashLoop env ratio a ds s t = some (s', t') →
      s'.delegations = ds.foldl (fun L d => L.map (fun e =>
        if e.DelegatorAddress = d.DelegatorAddress ∧ e.PubKey = d.PubKey
        then slashedDelegation env ratio d else e)) s.delegations := by
  intro ds
  induction ds with
  | nil =>
    intro s t s' t' h
    simp only [slashLoop, Option.some.injEq, Prod.mk.injEq] at h
    rw [← h.1]
    rfl
  | cons d ds ih =>
    intro s t s' t' h
    simp only [slashLoop] at h
    cases hstep : slashDelegator env d a (env.MulRat d.Shares ratio) s with
    | none => rw [hstep] at h; cases h
    | some s1 =>
      rw [hstep] at h
      rw [ih s1 _ s' t' h, slashDelegator_delegations env d a _ s s1 hstep]
      rfl

/-- With distinct identities the successive ledger updates are one pass over the ledger. -/
theorem foldl_update_eq_map (env : Env) (ratio : ℚ) :
    ∀ (ds : List Delegation) (L : List Delegation), (ds.map Delegation.key).Nodup →
      ds.foldl (fun L d => L.map (fun e =>
        if e.DelegatorAddress = d.DelegatorAddress ∧ e.PubKey = d.PubKey
        then slashedDelegation env ratio d else e)) L =
      L.map (fun e =>
        ((ds.find? (fun d => decide (d.key = e.key))).map (slashedDelegation env ratio)).getD e) := by
  intro ds
  induction ds with
  | nil =>
    intro L _
    simp
  | cons d ds ih =>
    intro L hnd
    rw [List.map_cons, List.nodup_cons] at hnd
    rw [List.foldl_cons, ih _ hnd.2, List.map_map]
    apply List.map_congr_left
    intro e _
    have hnone : ds.find? (fun d' => decide (d'.key = d.key)) = none := by
      rw [List.find?_eq_none]
      intro d' hd' hk
      apply hnd.1
      rw [List.mem_map]
      exact ⟨d', hd', by simpa using hk⟩
    by_cases hk : e.key = d.key
    · have hc := (key_eq_iff e d).mpr hk
      simp only [Function.comp, if_pos hc, slashedDelegation_key, hnone, List.find?_cons, hk,
        decide_True, Option.map_none', Option.map_some', Option.getD_none, Option.getD_some]
    · have hc : ¬ (e.DelegatorAddress = d.DelegatorAddress ∧ e.PubKey = d.PubKey) :=
        fun h => hk ((key_eq_iff e d).mp h)
      have hk' : ¬ d.key = e.key := fun h => hk h.symm
      simp only [Function.comp, if_neg hc, List.find?_cons, hk', decide_False]

/-- In a ledger with distinct identities, the one pass slashes exactly the delegations
bound to the validator. -/
theorem map_filter_slashed (env : Env) (ratio : ℚ) (pk : PubKey) (L : List Delegation)
    (hnd : (L.map Delegation.key).Nodup) :
    L.map (fun e =>
      (((L.filter (fun d => decide (d.PubKey = pk))).find?
        (fun d => decide (d.key = e.key))).map (slashedDelegation env ratio)).getD e) =
    L.map (fun e => if e.PubKey = pk then slashedDelegation env ratio e else e) := by
  apply List.map_congr_left
  intro e he
  by_cases hpk : e.PubKey = pk
  · rw [if_pos hpk]
    have hmem : e ∈ L.filter (fun d => decide (d.PubKey = pk)) := by
      rw [List.mem_filter]; exact ⟨he, by simpa using hpk⟩
    obtain ⟨d, hd⟩ := Option.isSome_iff_exists.mp
      ((List.find?_isSome (p := fun d => decide (d.key = e.key))).mpr ⟨e, hmem, by simp⟩)
    have hdk : d.key = e.key := by simpa using List.find?_some hd
    have hdL : d ∈ L := (List.mem_filter.mp (List.mem_of_find?_eq_some hd)).1
    have hde : d = e := List.inj_on_of_nodup_map hnd hdL he hdk
    rw [hd, hde]
    rfl
  · rw [if_neg hpk]
    have hnone : (L.filter (fun d => decide (d.PubKey = pk))).find?
        (fun d => decide (d.key = e.key)) = none := by
      rw [List.find?_eq_none]
      intro d hd hk
      have h1 : d.PubKey = pk := by simpa using (List.mem_filter.mp hd).2
      have h2 : d.key = e.key := by simpa using hk
      apply hpk
      rw [← h1]
      exact (congrArg Prod.snd h2).symm
    rw [hnone]
    rfl

/-- What `slash` does on a validator with positive shares; the record it appends
carries the `totalDeduction` the loop left, which is the initial 0. -/
theorem slash_pos (env : Env) (pk : PubKey) (reason : String) (ratio : ℚ) (s : State)
    (v : Candidate) (hv : GetCandidateByPubKey s pk = some v) (hpos : 0 < v.ParseShares) :
    ∃ s' v', slash env pk reason ratio s = some ⟨s', none⟩ ∧
      s'.punishHistory = s.punishHistory ++ [slashRecord env pk reason ratio 0] ∧
      GetCandidateByPubKey s' pk = some v' ∧ v'.OwnerAddress = v.OwnerAddress ∧
      v'.Active = v.Active ∧
      (GetCandidateByAddress s (HexToAddress v.OwnerAddress) = some v →
        v'.Shares = v.Shares - (deductions env ratio (GetDelegationsByPubKey s pk)).sum) ∧
      ((s.delegations.map Delegation.key).Nodup →
        s'.delegations = s.delegations.map (fun e =>
          if e.PubKey = pk then slashedDelegation env ratio e else e)) := by
  have hvpk : v.PubKey = pk := GetCandidateByPubKey_spec s pk v hv
  obtain ⟨s1, v', hloop, hph, hpk', ha', hact', hres'⟩ :=
    slashLoop_spec env ratio pk (HexToAddress v.OwnerAddress)
      (GetDelegationsByPubKey s pk) s 0 v hv rfl
  have hdel := slashLoop_delegations env ratio _ _ s 0 s1 _ hloop
  refine ⟨savePunishHistory s1 (slashRecord env pk reason ratio 0),
    v', ?_, ?_, hpk', ha', hact', ?_, ?_⟩
  · simp only [slash, hv, hvpk, if_neg (not_le.mpr hpos), hloop, slashRecord]
  · show s1.punishHistory ++ _ = _
    rw [hph]
  · intro h
    exact (hres' h).2
  · intro hnd
    show s1.delegations = _
    have hsub : (GetDelegationsByPubKey s pk).Sublist s.delegations := List.filter_sublist _
    rw [hdel, foldl_update_eq_map env ratio (GetDelegationsByPubKey s pk) s.delegations
      ((hsub.map Delegation.key).nodup hnd)]
    exact map_filter_slashed env ratio pk s.delegations hnd

/-- What `RemoveValidator` does on an existing validator. -/
theorem RemoveValidator_spec (env : Env) (pk : PubKey) (s : State) (v : Candidate)
    (hv : GetCandidateByPubKey s pk = some v) :
    ∃ s', RemoveValidator env pk s = ⟨s', none⟩ ∧
      s'.punishHistory = s.punishHistory ++ [removalRecord env pk] ∧
      s'.delegations = s.delegations ∧
      GetCandidateByPubKey s' pk = some { v with Active := "N", UpdatedAt := env.now } := by
  refine ⟨savePunishHistory
      (updateCandidate s { v with Active := "N", UpdatedAt := env.now }) (removalRecord env pk),
    by simp only [RemoveValidator, hv, removalRecord], rfl, rfl, ?_⟩
  show GetCandidateByPubKey (updateCandidate s _) pk = _
  rw [GetCandidateByPubKey_update, hv]
  simp

/-- On a validator without stake `slash` returns nil and writes nothing. -/
theorem slash_nonpos (env : Env) (pk : PubKey) (reason : String) (ratio : ℚ) (s : State)
    (v : Candidate) (hv : GetCandidateByPubKey s pk = some v) (hle : v.ParseShares ≤ 0) :
    slash env pk reason ratio s = some ⟨s, none⟩ := by
  simp only [slash, hv, if_pos hle]

/-! ## Slashing engine: claims -/

/-- C1, as stated, fails: with `MaxSlashingBlocks = 12` and an absence of count 12,
`SlashAbsentValidator` on validator 1 of `s0` does apply the base-ratio slash in the
same call. The three delegations go from shares 100, 50, 10 to 90, 45, 9, the
validator's shares go from 160 to 144, and the log gains a record with ratio 1/10
and reason "Absent validator" before the zero-ratio removal record. -/
theorem C1_counterexample :
    (SlashAbsentValidator env0 1 ⟨12, 5⟩ s0).map (fun r => r.state.delegations) =
      some [⟨11, 1, 90, 10, 77⟩, ⟨31, 1, 45, 5, 77⟩, ⟨32, 2, 40, 0, 0⟩, ⟨33, 1, 9, 1, 77⟩] ∧
    (SlashAbsentValidator env0 1 ⟨12, 5⟩ s0).map (fun r => r.state.candidates) =
      some [⟨1, 11, 144, "N", 77⟩, ⟨2, 22, 40, "Y", 0⟩] ∧
    (SlashAbsentValidator env0 1 ⟨12, 5⟩ s0).map (fun r =>
        r.state.punishHistory.map (fun p => (p.PubKey, p.SlashingRatio, p.Reason))) =
      some [(1, 1 / 10, "Absent validator"),
        (1, 0, "Absent for up to 12 consecutive blocks")] ∧
    GetCandidateByPubKey s0 1 = some ⟨1, 11, 160, "Y", 0⟩ ∧
    s0.delegations ≠
      [⟨11, 1, 90, 10, 77⟩, ⟨31, 1, 45, 5, 77⟩, ⟨32, 2, 40, 0, 0⟩, ⟨33, 1, 9, 1, 77⟩] := by
  refine ⟨?_, ?_, ?_, ?_, ?_⟩
  · simp [SlashAbsentValidator, env0, s0, slash, slashLoop, slashDelegator,
      GetCandidateByPubKey, GetCandidateByAddress, GetDelegationsByPubKey, updateCandidate,
      UpdateDelegation, savePunishHistory, RemoveValidator, HexToAddress, Absence.GetCount,
      Candidate.ParseShares, Candidate.AddShares, Delegation.Shares, Delegation.AddSlashAmount,
      mulRatFloor]
  · simp [SlashAbsentValidator, env0, s0, slash, slashLoop, slashDelegator,
      GetCandidateByPubKey, GetCandidateByAddress, GetDelegationsByPubKey, updateCandidate,
      UpdateDelegation, savePunishHistory, RemoveValidator, HexToAddress, Absence.GetCount,
      Candidate.ParseShares, Candidate.AddShares, Delegation.Shares, Delegation.AddSlashAmount,
      mulRatFloor]
  · simp [SlashAbsentValidator, env0, s0, slash, slashLoop, slashDelegator,
      GetCandidateByPubKey, GetCandidateByAddress, GetDelegationsByPubKey, updateCandidate,
      UpdateDelegation, savePunishHistory, RemoveValidator, HexToAddress, Absence.GetCount,
      Candidate.ParseShares, Candidate.AddShares, Delegation.Shares, Delegation.AddSlashAmount,
      mulRatFloor]
  · decide
  · decide

/-- C1 (amended): for every validator that exists with positive shares and every
absence whose count equals `MaxSlashingBlocks`, `SlashAbsentValidator` first applies
the base-ratio slash and then removes the validator in the same call: it returns
what `RemoveValidator` returns on the state `slash` left, with no error, the
validator is inactive afterwards, the delegations are as `slash` left them (in a
ledger with distinct identities: every delegation of the validator slashed at the
base ratio), and the log gains a record with the validator's key, the base ratio and
the reason "Absent validator", followed by the zero-ratio removal record. -/
theorem C1_absent_at_max (env : Env) (pk : PubKey) (absence : Absence) (s : State)
    (v : Candidate) (hv : GetCandidateByPubKey s pk = some v) (hpos : 0 < v.ParseShares)
    (hcount : absence.GetCount = env.MaxSlashingBlocks) :
    ∃ s1 s2 p, slash env pk "Absent validator" env.SlashingRatio s = some ⟨s1, none⟩ ∧
      RemoveValidator env pk s1 = ⟨s2, none⟩ ∧
      SlashAbsentValidator env pk absence s = some ⟨s2, none⟩ ∧
      (∃ v', GetCandidateByPubKey s2 pk = some v' ∧ v'.Active = "N") ∧
      s2.delegations = s1.delegations ∧
      ((s.delegations.map Delegation.key).Nodup →
        s2.delegations = s.delegations.map (fun d =>
          if d.PubKey = pk then slashedDelegation env env.SlashingRatio d else d)) ∧
      s2.punishHistory = s.punishHistory ++ [p, removalRecord env pk] ∧
      p.PubKey = pk ∧ p.SlashingRatio = env.SlashingRatio ∧ p.Reason = "Absent validator" := by
  obtain ⟨s1, v1, hslash, hph1, hpk1, _, _, _, hdel1⟩ :=
    slash_pos env pk "Absent validator" env.SlashingRatio s v hv hpos
  obtain ⟨s2, hrem, hph2, hdel2, hpk2⟩ := RemoveValidator_spec env pk s1 v1 hpk1
  refine ⟨s1, s2, slashRecord env pk "Absent validator" env.SlashingRatio 0, hslash, hrem, ?_,
    ⟨_, hpk2, rfl⟩, hdel2, ?_, ?_, rfl, rfl, rfl⟩
  · simp only [SlashAbsentValidator, hcount, le_refl, if_true, hslash, hrem]
  · intro hnd
    rw [hdel2]
    exact hdel1 hnd
  · rw [hph2, hph1, List.append_assoc]
    rfl

/-- C1 (amended) on the scenario state: validator 1 of `s0` has shares 160, the
absence count is 12 and the maximum is 12. -/
theorem C1_absent_at_max_witness :
    ∃ s1 s2 p, slash env0 1 "Absent validator" env0.SlashingRatio s0 = some ⟨s1, none⟩ ∧
      RemoveValidator env0 1 s1 = ⟨s2, none⟩ ∧
      SlashAbsentValidator env0 1 ⟨12, 5⟩ s0 = some ⟨s2, none⟩ ∧
      (∃ v', GetCandidateByPubKey s2 1 = some v' ∧ v'.Active = "N") ∧
      s2.delegations = s1.delegations ∧
      ((s0.delegations.map Delegation.key).Nodup →
        s2.delegations = s0.delegations.map (fun d =>
          if d.PubKey = 1 then slashedDelegation env0 env0.SlashingRatio d else d)) ∧
      s2.punishHistory = s0.punishHistory ++ [p, removalRecord env0 1] ∧
      p.PubKey = 1 ∧ p.SlashingRatio = env0.SlashingRatio ∧ p.Reason = "Absent validator" :=
  C1_absent_at_max env0 1 ⟨12, 5⟩ s0 ⟨1, 11, 160, "Y", 0⟩ (by decide) (by decide) (by decide)

/-- C2: for every existing validator and every absence whose count is strictly below
`MaxSlashingBlocks`, `SlashAbsentValidator` is exactly
`slash pubKey "Absent validator" baseRatio` (same state, same error; `RemoveValidator`
is not run), it returns, and the validator's active flag is what it was. -/
theorem C2_absent_below_max (env : Env) (pk : PubKey) (absence : Absence) (s : State)
    (v : Candidate) (hv : GetCandidateByPubKey s pk = some v)
    (hlt : absence.GetCount < env.MaxSlashingBlocks) :
    SlashAbsentValidator env pk absence s =
      slash env pk "Absent validator" env.SlashingRatio s ∧
    ∃ s' v', SlashAbsentValidator env pk absence s = some ⟨s', none⟩ ∧
      GetCandidateByPubKey s' pk = some v' ∧ v'.Active = v.Active := by
  have heq : SlashAbsentValidator env pk absence s =
      slash env pk "Absent validator" env.SlashingRatio s := by
    simp only [SlashAbsentValidator, if_pos (le_of_lt hlt), if_neg (ne_of_lt hlt)]
    cases slash env pk "Absent validator" env.SlashingRatio s <;> rfl
  refine ⟨heq, ?_⟩
  rw [heq]
  by_cases hpos : 0 < v.ParseShares
  · obtain ⟨s', v', hslash, _, hpk', _, hact', _, _⟩ :=
      slash_pos env pk "Absent validator" env.SlashingRatio s v hv hpos
    exact ⟨s', v', hslash, hpk', hact'⟩
  · exact ⟨s, v, by simp only [slash, hv, if_pos (not_lt.mp hpos)], hv, rfl⟩

/-- C2 on the scenario state: an absence of count 3 below the maximum 12. -/
theorem C2_absent_below_max_witness :
    SlashAbsentValidator env0 1 ⟨3, 5⟩ s0 =
      slash env0 1 "Absent validator" env0.SlashingRatio s0 ∧
    ∃ s' v', SlashAbsentValidator env0 1 ⟨3, 5⟩ s0 = some ⟨s', none⟩ ∧
      GetCandidateByPubKey s' 1 = some v' ∧ v'.Active = "Y" :=
  C2_absent_below_max env0 1 ⟨3, 5⟩ s0 ⟨1, 11, 160, "Y", 0⟩ (by decide) (by decide)

/-- C3 fails on the code at the scenario of the spec: slashing validator 1 of `s0`
at ratio 1/10 deducts 10, 5 and 1 from its delegations and lowers its shares by 16,
from 160 to 144, but the record appended to the log carries `SlashAmount = 0`: the
loop drops the result of `totalDeduction.Add(slash)`, so the total stays at its
initial value. -/
theorem C3_slash_amount_not_accumulated :
    deductions env0 (1 / 10) (GetDelegationsByPubKey s0 1) = [10, 5, 1] ∧
    (slash env0 1 "Absent validator" (1 / 10) s0).map (fun r => r.state.punishHistory) =
      some [⟨1, 1 / 10, 0, "Absent validator", 77⟩] ∧
    (slash env0 1 "Absent validator" (1 / 10) s0).map
        (fun r => GetCandidateByPubKey r.state 1) = some (some ⟨1, 11, 144, "Y", 77⟩) ∧
    GetCandidateByPubKey s0 1 = some ⟨1, 11, 160, "Y", 0⟩ ∧
    (0 : Int) ≠ 10 + 5 + 1 := by
  refine ⟨?_, ?_, ?_, by decide, by decide⟩
  · simp [deductions, GetDelegationsByPubKey, s0, env0, mulRatFloor, Delegation.Shares]
  · simp [env0, s0, slash, slashLoop, slashDelegator,
      GetCandidateByPubKey, GetCandidateByAddress, GetDelegationsByPubKey, updateCandidate,
      UpdateDelegation, savePunishHistory, HexToAddress,
      Candidate.ParseShares, Candidate.AddShares, Delegation.Shares, Delegation.AddSlashAmount,
      mulRatFloor]
  · simp [env0, s0, slash, slashLoop, slashDelegator,
      GetCandidateByPubKey, GetCandidateByAddress, GetDelegationsByPubKey, updateCandidate,
      UpdateDelegation, savePunishHistory, HexToAddress,
      Candidate.ParseShares, Candidate.AddShares, Delegation.Shares, Delegation.AddSlashAmount,
      mulRatFloor]

/-- C4: for every existing validator whose total shares are `≤ 0`, and every reason
and ratio, `slash` returns nil and the state it leaves is the state it was given:
registry, ledger and punishment log are unchanged. -/
theorem C4_slash_no_stake (env : Env) (pk : PubKey) (reason : String) (ratio : ℚ) (s : State)
    (v : Candidate) (hv : GetCandidateByPubKey s pk = some v) (hle : v.ParseShares ≤ 0) :
    slash env pk reason ratio s = some ⟨s, none⟩ :=
  slash_nonpos env pk reason ratio s v hv hle

/-- C4 on a validator with zero shares. -/
theorem C4_slash_no_stake_witness :
    slash env0 1 "Byzantine validator" (1 / 10) sZero = some ⟨sZero, none⟩ :=
  C4_slash_no_stake env0 1 "Byzantine validator" (1 / 10) sZero ⟨1, 11, 0, "Y", 0⟩
    (by decide) (by decide)

/-- C5: for every validator with positive shares that resolves identically by public
key and by owner address, in a ledger whose delegations have distinct identities,
`slash` turns every delegation `d` bound to the validator into the record with
shares `d.shares - MulRat d.shares ratio` and slash-amount
`d.SlashAmount + MulRat d.shares ratio`, leaves every delegation bound to another
validator as it was, and decreases the validator's total shares by the sum of those
amounts; each single `slashDelegator` step decreases the validator's total shares
by exactly the amount it adds to the delegation's slash-amount. -/
theorem C5_slash_delegations (env : Env) (pk : PubKey) (reason : String) (ratio : ℚ)
    (s : State) (v : Candidate) (hv : GetCandidateByPubKey s pk = some v)
    (hpos : 0 < v.ParseShares)
    (hres : GetCandidateByAddress s (HexToAddress v.OwnerAddress) = some v)
    (hkeys : (s.delegations.map Delegation.key).Nodup) :
    (∃ s' v', slash env pk reason ratio s = some ⟨s', none⟩ ∧
      s'.delegations = s.delegations.map (fun d =>
        if d.PubKey = pk then
          { d with shares := d.shares - env.MulRat d.shares ratio,
                   SlashAmount := d.SlashAmount + env.MulRat d.shares ratio,
                   UpdatedAt := env.now }
        else d) ∧
      GetCandidateByPubKey s' pk = some v' ∧
      v'.Shares = v.Shares - (deductions env ratio (GetDelegationsByPubKey s pk)).sum) ∧
    (∀ (d : Delegation) (amount : Int), ∃ s1 v1,
      slashDelegator env d (HexToAddress v.OwnerAddress) amount s = some s1 ∧
      GetCandidateByPubKey s1 pk = some v1 ∧ v1.Shares = v.Shares - amount) := by
  constructor
  · obtain ⟨s', v', hslash, _, hpk', _, _, hsh, hdel⟩ :=
      slash_pos env pk reason ratio s v hv hpos
    exact ⟨s', v', hslash, hdel hkeys, hpk', hsh hres⟩
  · intro d amount
    refine ⟨_, { v.AddShares (-amount) with UpdatedAt := env.now },
      slashDelegator_eq env d _ amount s v hres, ?_, ?_⟩
    · rw [GetCandidateByPubKey_update]
      have : GetCandidateByPubKey
          (UpdateDelegation s { d.AddSlashAmount amount with UpdatedAt := env.now }) pk
          = some v := hv
      rw [this]
      simp [Candidate.AddShares]
    · simp [Candidate.AddShares]
      ring

/-- C5 on the scenario state: the three delegations of validator 1 end with shares
90, 45, 9 and slash-amounts 10, 5, 1, the delegation of validator 2 is untouched,
and validator 1 ends with shares 144. -/
theorem C5_slash_delegations_witness :
    ∃ s' v', slash env0 1 "Absent validator" (1 / 10) s0 = some ⟨s', none⟩ ∧
      s'.delegations =
        [⟨11, 1, 90, 10, 77⟩, ⟨31, 1, 45, 5, 77⟩, ⟨32, 2, 40, 0, 0⟩, ⟨33, 1, 9, 1, 77⟩] ∧
      GetCandidateByPubKey s' 1 = some v' ∧ v'.Shares = 144 := by
  obtain ⟨s', v', h1, h2, h3, h4⟩ :=
    (C5_slash_delegations env0 1 "Absent validator" (1 / 10) s0 ⟨1, 11, 160, "Y", 0⟩
      (by decide) (by decide) (by decide) (by decide)).1
  refine ⟨s', v', h1, ?_, h3, ?_⟩
  · rw [h2]
    simp [s0, env0, mulRatFloor]
  · rw [h4]
    simp [deductions, GetDelegationsByPubKey, s0, env0, mulRatFloor, Delegation.Shares]

/-- C6, as stated, fails for a validator without stake: on `sZero` (shares 0)
`SlashBadProposer` returns nil and deactivates the validator, but the only record
the log gains is the zero-ratio removal record, whose ratio is not
`SlashingRatio * MaxSlashingBlocks = 6/5`. -/
theorem C6_counterexample :
    SlashBadProposer env0 1 sZero =
      some ⟨{ candidates := [⟨1, 11, 0, "N", 77⟩], delegations := [⟨11, 1, 0, 100, 0⟩],
              punishHistory := [⟨1, 0, 0, "Absent for up to 12 consecutive blocks", 77⟩] },
            none⟩ ∧
    (0 : ℚ) ≠ env0.SlashingRatio * (env0.MaxSlashingBlocks : ℚ) := by
  constructor
  · simp [SlashBadProposer, env0, sZero, slash, GetCandidateByPubKey, updateCandidate,
      savePunishHistory, RemoveValidator, Candidate.ParseShares]
  · simp [env0]

/-- C6 (amended): for every existing validator, `SlashBadProposer` returns nil and
ends with the validator inactive. When the validator's shares are positive the log
gains a record for it with ratio `SlashingRatio * MaxSlashingBlocks` and reason
"Bad block proposer", followed by the zero-ratio removal record; when its shares are
`≤ 0` the log gains the removal record only. -/
theorem C6_bad_proposer (env : Env) (pk : PubKey) (s : State) (v : Candidate)
    (hv : GetCandidateByPubKey s pk = some v) :
    ∃ s', SlashBadProposer env pk s = some ⟨s', none⟩ ∧
      (∃ v', GetCandidateByPubKey s' pk = some v' ∧ v'.Active = "N") ∧
      (0 < v.ParseShares → ∃ p,
        s'.punishHistory = s.punishHistory ++ [p, removalRecord env pk] ∧
        p.PubKey = pk ∧
        p.SlashingRatio = env.SlashingRatio * (env.MaxSlashingBlocks : ℚ) ∧
        p.Reason = "Bad block proposer") ∧
      (v.ParseShares ≤ 0 → s'.punishHistory = s.punishHistory ++ [removalRecord env pk]) := by
  by_cases hpos : 0 < v.ParseShares
  · obtain ⟨s1, v1, hslash, hph1, hpk1, _, _, _, _⟩ :=
      slash_pos env pk "Bad block proposer" (env.SlashingRatio * (env.MaxSlashingBlocks : ℚ))
        s v hv hpos
    obtain ⟨s2, hrem, hph2, _, hpk2⟩ := RemoveValidator_spec env pk s1 v1 hpk1
    refine ⟨s2, ?_, ⟨_, hpk2, rfl⟩, ?_, fun hle => absurd hpos (not_lt.mpr hle)⟩
    · simp only [SlashBadProposer, hslash, hrem]
      simp
    · intro _
      refine ⟨slashRecord env pk "Bad block proposer"
        (env.SlashingRatio * (env.MaxSlashingBlocks : ℚ)) 0, ?_, rfl, rfl, rfl⟩
      rw [hph2, hph1, List.append_assoc]
      rfl
  · have hle : v.ParseShares ≤ 0 := not_lt.mp hpos
    obtain ⟨s2, hrem, hph2, _, hpk2⟩ := RemoveValidator_spec env pk s v hv
    refine ⟨s2, ?_, ⟨_, hpk2, rfl⟩, fun h => absurd h hpos, fun _ => hph2⟩
    simp only [SlashBadProposer, slash_nonpos env pk _ _ s v hv hle, hrem]
    simp

/-- C6 (amended) on the scenario state and on a validator without stake. -/
theorem C6_bad_proposer_witness :
    (∃ s', SlashBadProposer env0 1 s0 = some ⟨s', none⟩ ∧
      (∃ v', GetCandidateByPubKey s' 1 = some v' ∧ v'.Active = "N") ∧
      ∃ p, s'.punishHistory = [p, ⟨1, 0, 0, "Absent for up to 12 consecutive blocks", 77⟩] ∧
        p.PubKey = 1 ∧ p.SlashingRatio = 6 / 5 ∧ p.Reason = "Bad block proposer") ∧
    (∃ s', SlashBadProposer env0 1 sZero = some ⟨s', none⟩ ∧
      s'.punishHistory = [⟨1, 0, 0, "Absent for up to 12 consecutive blocks", 77⟩]) := by
  constructor
  · obtain ⟨s', h1, h2, h3, _⟩ := C6_bad_proposer env0 1 s0 ⟨1, 11, 160, "Y", 0⟩ (by decide)
    obtain ⟨p, hp, hk, hr, hre⟩ := h3 (by decide)
    refine ⟨s', h1, h2, p, hp, hk, ?_, hre⟩
    rw [hr]
    simp [env0]
    norm_num
  · obtain ⟨s', h1, _, _, h4⟩ := C6_bad_proposer env0 1 sZero ⟨1, 11, 0, "Y", 0⟩ (by decide)
    refine ⟨s', h1, ?_⟩
    rw [h4 (by decide)]
    rfl

/-! ## Slashing engine: lemmas on every operation -/

/-- The three ways `slash` returns: validator not found, validator without stake,
validator slashed. It always returns. -/
theorem slash_cases (env : Env) (pk : PubKey) (reason : String) (ratio : ℚ) (s : State) :
    (GetCandidateByPubKey s pk = none ∧
      slash env pk reason ratio s = some ⟨s, some Error.ErrBadValidatorAddr⟩) ∨
    (∃ v, GetCandidateByPubKey s pk = some v ∧ v.ParseShares ≤ 0 ∧
      slash env pk reason ratio s = some ⟨s, none⟩) ∨
    (∃ v s' v', GetCandidateByPubKey s pk = some v ∧ 0 < v.ParseShares ∧
      slash env pk reason ratio s = some ⟨s', none⟩ ∧
      s'.punishHistory = s.punishHistory ++ [slashRecord env pk reason ratio 0] ∧
      GetCandidateByPubKey s' pk = some v' ∧ v'.Active = v.Active) := by
  cases hv : GetCandidateByPubKey s pk with
  | none =>
    left
    exact ⟨rfl, by simp only [slash, hv]⟩
  | some v =>
    right
    by_cases hpos : 0 < v.ParseShares
    · right
      obtain ⟨s', v', h1, h2, h3, _, h5, _, _⟩ := slash_pos env pk reason ratio s v hv hpos
      exact ⟨v, s', v', rfl, hpos, h1, h2, h3, h5⟩
    · left
      exact ⟨v, rfl, not_lt.mp hpos, slash_nonpos env pk reason ratio s v hv (not_lt.mp hpos)⟩

/-- The state a successful `slashDelegator` step leaves. -/
theorem slashDelegator_some (env : Env) (d : Delegation) (a : Address) (amt : Int)
    (s s1 : State) (h : slashDelegator env d a amt s = some s1) :
    ∃ val, GetCandidateByAddress s a = some val ∧
      s1 = updateCandidate
        (UpdateDelegation s { d.AddSlashAmount amt with UpdatedAt := env.now })
        { val.AddShares (-amt) with UpdatedAt := env.now } := by
  cases hval : GetCandidateByAddress s a with
  | none =>
    have h1 : GetCandidateByAddress
        (UpdateDelegation s { d.AddSlashAmount amt with UpdatedAt := env.now }) a = none := hval
    simp only [slashDelegator, h1] at h
    cases h
  | some val =>
    rw [slashDelegator_eq env d a amt s val hval] at h
    exact ⟨val, rfl, (Option.some.inj h).symm⟩

/-- The loop of `slash` keeps, for every validator the registry resolves by public
key, its owner address and its active flag, and it leaves the log alone. -/
theorem slashLoop_lookup (env : Env) (ratio : ℚ) (a : Address) (pkV : PubKey) :
    ∀ (ds : List Delegation) (s : State) (t : Int) (s' : State) (t' : Int),
      slashLoop env ratio a ds s t = some (s', t') →
      ∀ V, GetCandidateByPubKey s pkV = some V →
        ∃ V', GetCandidateByPubKey s' pkV = some V' ∧ V'.Active = V.Active ∧
          V'.OwnerAddress = V.OwnerAddress := by
  intro ds
  induction ds with
  | nil =>
    intro s t s' t' h V hV
    simp only [slashLoop, Option.some.injEq, Prod.mk.injEq] at h
    rw [← h.1]
    exact ⟨V, hV, rfl, rfl⟩
  | cons d ds ih =>
    intro s t s' t' h V hV
    simp only [slashLoop] at h
    cases hstep : slashDelegator env d a (env.MulRat d.Shares ratio) s with
    | none => rw [hstep] at h; cases h
    | some s1 =>
      rw [hstep] at h
      obtain ⟨val, hval, hs1⟩ := slashDelegator_some env d a _ s s1 hstep
      have hVpk : V.PubKey = pkV := GetCandidateByPubKey_spec s pkV V hV
      have hvala : val.OwnerAddress = a := GetCandidateByAddress_spec s a val hval
      have hl1 : GetCandidateByPubKey s1 pkV = some
          (if V.PubKey = val.PubKey ∧ V.OwnerAddress = val.OwnerAddress then
            { val.AddShares (-(env.MulRat d.Shares ratio)) with UpdatedAt := env.now }
           else V) := by
        rw [hs1, GetCandidateByPubKey_update]
        have : GetCandidateByPubKey
            (UpdateDelegation s
              { d.AddSlashAmount (env.MulRat d.Shares ratio) with UpdatedAt := env.now })
            pkV = some V := hV
        rw [this]
        rfl
      obtain ⟨V', h1, h2, h3⟩ := ih s1 _ s' t' h _ hl1
      refine ⟨V', h1, ?_, ?_⟩
      · rw [h2]
        by_cases hc : V.PubKey = val.PubKey ∧ V.OwnerAddress = val.OwnerAddress
        · rw [if_pos hc]
          have hVv : V = val := find?_unique _ _ _ V val hV hval
            (by simp [hc.2, hvala]) (by simp [← hc.1, hVpk])
          rw [hVv]
          rfl
        · rw [if_neg hc]
      · rw [h3]
        by_cases hc : V.PubKey = val.PubKey ∧ V.OwnerAddress = val.OwnerAddress
        · rw [if_pos hc]
          exact hc.2.symm
        · rw [if_neg hc]

/-- The function `slash` keeps the active flag of every validator the registry
resolves by public key. -/
theorem slash_lookup (env : Env) (pk : PubKey) (reason : String) (ratio : ℚ) (s : State)
    (r : Result) (h : slash env pk reason ratio s = some r) (pkV : PubKey) (V : Candidate)
    (hV : GetCandidateByPubKey s pkV = some V) :
    ∃ V', GetCandidateByPubKey r.state pkV = some V' ∧ V'.Active = V.Active := by
  unfold slash at h
  cases hv : GetCandidateByPubKey s pk with
  | none =>
    rw [hv] at h
    cases h
    exact ⟨V, hV, rfl⟩
  | some v =>
    rw [hv] at h
    simp only at h
    by_cases hle : v.ParseShares ≤ 0
    · rw [if_pos hle] at h
      cases h
      exact ⟨V, hV, rfl⟩
    · rw [if_neg hle] at h
      cases hloop : slashLoop env ratio (HexToAddress v.OwnerAddress)
          (GetDelegationsByPubKey s v.PubKey) s 0 with
      | none => rw [hloop] at h; cases h
      | some p =>
        obtain ⟨s1, t1⟩ := p
        rw [hloop] at h
        cases h
        obtain ⟨V', h1, h2, _⟩ := slashLoop_lookup env ratio _ pkV _ s 0 s1 t1 hloop V hV
        exact ⟨V', h1, h2⟩

/-- What `RemoveValidator` does to the validators the registry resolves by public
key: the target becomes inactive, any other validator is untouched, and no
validator's shares change. -/
theorem RemoveValidator_lookup (env : Env) (pk : PubKey) (s : State) (pkV : PubKey)
    (V : Candidate) (hV : GetCandidateByPubKey s pkV = some V) :
    ∃ V', GetCandidateByPubKey (RemoveValidator env pk s).state pkV = some V' ∧
      V'.Shares = V.Shares ∧ (V.Active = "N" → V'.Active = "N") ∧ (pkV ≠ pk → V' = V) := by
  cases hv : GetCandidateByPubKey s pk with
  | none =>
    have : RemoveValidator env pk s = ⟨s, some Error.ErrBadValidatorAddr⟩ := by
      simp only [RemoveValidator, hv]
    rw [this]
    exact ⟨V, hV, rfl, fun h => h, fun _ => rfl⟩
  | some v =>
    have hvpk : v.PubKey = pk := GetCandidateByPubKey_spec s pk v hv
    have hVpk : V.PubKey = pkV := GetCandidateByPubKey_spec s pkV V hV
    have hst : (RemoveValidator env pk s).state = savePunishHistory
        (updateCandidate s { v with Active := "N", UpdatedAt := env.now })
        (removalRecord env pk) := by
      simp only [RemoveValidator, hv, removalRecord]
    have hl : GetCandidateByPubKey (RemoveValidator env pk s).state pkV = some
        (if V.PubKey = v.PubKey ∧ V.OwnerAddress = v.OwnerAddress then
          { v with Active := "N", UpdatedAt := env.now } else V) := by
      rw [hst]
      show GetCandidateByPubKey (updateCandidate s _) pkV = _
      rw [GetCandidateByPubKey_update, hV]
      rfl
    refine ⟨_, hl, ?_, ?_, ?_⟩
    · by_cases hc : V.PubKey = v.PubKey ∧ V.OwnerAddress = v.OwnerAddress
      · rw [if_pos hc]
        have hVv : V = v := by
          have hpp : pkV = pk := by rw [← hVpk, hc.1, hvpk]
          rw [hpp, hv] at hV
          exact (Option.some.inj hV).symm
        rw [hVv]
      · rw [if_neg hc]
    · intro hN
      by_cases hc : V.PubKey = v.PubKey ∧ V.OwnerAddress = v.OwnerAddress
      · rw [if_pos hc]
      · rw [if_neg hc]; exact hN
    · intro hne
      have hc : ¬ (V.PubKey = v.PubKey ∧ V.OwnerAddress = v.OwnerAddress) := by
        rintro ⟨h1, _⟩
        apply hne
        rw [← hVpk, h1, hvpk]
      rw [if_neg hc]

/-- The two ways `RemoveValidator` returns. -/
theorem RemoveValidator_cases (env : Env) (pk : PubKey) (s : State) :
    (GetCandidateByPubKey s pk = none ∧
      RemoveValidator env pk s = ⟨s, some Error.ErrBadValidatorAddr⟩) ∨
    (∃ v s', GetCandidateByPubKey s pk = some v ∧ RemoveValidator env pk s = ⟨s', none⟩ ∧
      s'.punishHistory = s.punishHistory ++ [removalRecord env pk] ∧
      s'.delegations = s.delegations) := by
  cases hv : GetCandidateByPubKey s pk with
  | none =>
    left
    exact ⟨rfl, by simp only [RemoveValidator, hv]⟩
  | some v =>
    right
    obtain ⟨s', h1, h2, h3, _⟩ := RemoveValidator_spec env pk s v hv
    exact ⟨v, s', rfl, h1, h2, h3⟩

/-- The meaning of `isInactive`. -/
theorem isInactive_iff (s : State) (pk : PubKey) :
    isInactive s pk = true ↔ ∃ V, GetCandidateByPubKey s pk = some V ∧ V.Active = "N" := by
  unfold isInactive
  cases GetCandidateByPubKey s pk <;> simp

/-- The function `slash` returns on every input. -/
theorem slash_returns (env : Env) (pk : PubKey) (reason : String) (ratio : ℚ) (s : State) :
    ∃ r, slash env pk reason ratio s = some r := by
  rcases slash_cases env pk reason ratio s with ⟨_, h⟩ | ⟨_, _, _, h⟩ | ⟨_, _, _, _, _, h, _⟩
  · exact ⟨_, h⟩
  · exact ⟨_, h⟩
  · exact ⟨_, h⟩

/-- The log `slash` leaves starts with the log it was given. -/
theorem slash_log_grows (env : Env) (pk : PubKey) (reason : String) (ratio : ℚ) (s : State)
    (r : Result) (h : slash env pk reason ratio s = some r) :
    s.punishHistory <+: r.state.punishHistory := by
  rcases slash_cases env pk reason ratio s with ⟨_, h1⟩ | ⟨_, _, _, h1⟩ | ⟨_, _, _, _, _, h1, h2, _⟩
  · rw [h1] at h; cases h; exact List.prefix_refl _
  · rw [h1] at h; cases h; exact List.prefix_refl _
  · rw [h1] at h; cases h
    show _ <+: _
    rw [h2]
    exact List.prefix_append _ _

/-- The log `RemoveValidator` leaves starts with the log it was given. -/
theorem RemoveValidator_log_grows (env : Env) (pk : PubKey) (s : State) :
    s.punishHistory <+: (RemoveValidator env pk s).state.punishHistory := by
  rcases RemoveValidator_cases env pk s with ⟨_, h1⟩ | ⟨_, _, _, h1, h2, _⟩
  · rw [h1]
  · rw [h1]
    show _ <+: _
    rw [h2]
    exact List.prefix_append _ _

/-- The three branches of `SlashAbsentValidator`, by the absence count. -/
theorem SlashAbsentValidator_cases (env : Env) (pk : PubKey) (absence : Absence) (s : State) :
    (env.MaxSlashingBlocks < absence.GetCount ∧
      SlashAbsentValidator env pk absence s = some ⟨s, none⟩) ∨
    (absence.GetCount < env.MaxSlashingBlocks ∧ ∃ r1,
      slash env pk "Absent validator" env.SlashingRatio s = some r1 ∧
      SlashAbsentValidator env pk absence s = some r1) ∨
    (absence.GetCount = env.MaxSlashingBlocks ∧ ∃ r1,
      slash env pk "Absent validator" env.SlashingRatio s = some r1 ∧
      SlashAbsentValidator env pk absence s = some (RemoveValidator env pk r1.state)) := by
  obtain ⟨r1, hr1⟩ := slash_returns env pk "Absent validator" env.SlashingRatio s
  rcases lt_trichotomy absence.GetCount env.MaxSlashingBlocks with hlt | heq | hgt
  · right; left
    refine ⟨hlt, r1, hr1, ?_⟩
    simp only [SlashAbsentValidator, if_pos (le_of_lt hlt), if_neg (ne_of_lt hlt), hr1]
  · right; right
    refine ⟨heq, r1, hr1, ?_⟩
    simp only [SlashAbsentValidator, if_pos (le_of_eq heq), if_pos heq, hr1]
  · left
    refine ⟨hgt, ?_⟩
    simp only [SlashAbsentValidator, if_neg (not_le.mpr hgt), if_neg (ne_of_gt hgt)]

/-- The two branches of `SlashBadProposer`, by the error `slash` returns. -/
theorem SlashBadProposer_cases (env : Env) (pk : PubKey) (s : State) :
    ∃ r1, slash env pk "Bad block proposer"
        (env.SlashingRatio * (env.MaxSlashingBlocks : ℚ)) s = some r1 ∧
      ((r1.err ≠ none ∧ SlashBadProposer env pk s = some r1) ∨
       (r1.err = none ∧ SlashBadProposer env pk s = some (RemoveValidator env pk r1.state))) := by
  obtain ⟨r1, hr1⟩ := slash_returns env pk "Bad block proposer"
    (env.SlashingRatio * (env.MaxSlashingBlocks : ℚ)) s
  refine ⟨r1, hr1, ?_⟩
  by_cases he : r1.err = none
  · right
    refine ⟨he, ?_⟩
    simp only [SlashBadProposer, hr1, he, ne_eq, not_true_eq_false, if_false]
  · left
    refine ⟨he, ?_⟩
    simp only [SlashBadProposer, hr1, ne_eq, he, not_false_eq_true, if_true]

/-- An inactive validator stays inactive under `slash`. -/
theorem slash_isInactive (env : Env) (pk : PubKey) (reason : String) (ratio : ℚ) (s : State)
    (r : Result) (h : slash env pk reason ratio s = some r) (pkV : PubKey)
    (hV : isInactive s pkV = true) : isInactive r.state pkV = true := by
  rw [isInactive_iff] at hV ⊢
  obtain ⟨V, h1, h2⟩ := hV
  obtain ⟨V', h3, h4⟩ := slash_lookup env pk reason ratio s r h pkV V h1
  exact ⟨V', h3, h4.trans h2⟩

/-- An inactive validator stays inactive under `RemoveValidator`. -/
theorem RemoveValidator_isInactive (env : Env) (pk : PubKey) (s : State) (pkV : PubKey)
    (hV : isInactive s pkV = true) : isInactive (RemoveValidator env pk s).state pkV = true := by
  rw [isInactive_iff] at hV ⊢
  obtain ⟨V, h1, h2⟩ := hV
  obtain ⟨V', h3, _, h5, _⟩ := RemoveValidator_lookup env pk s pkV V h1
  exact ⟨V', h3, h5 h2⟩

/-! ## Slashing engine: claims on removal, errors and frames -/

/-- C11: for every existing validator, `RemoveValidator` returns nil, leaves that
validator with active flag `"N"`, and appends exactly one record to the log, with
that public key, ratio zero, amount zero and the fixed reason string. -/
theorem C11_RemoveValidator (env : Env) (pk : PubKey) (s : State) (v : Candidate)
    (hv : GetCandidateByPubKey s pk = some v) :
    ∃ s' v', RemoveValidator env pk s = ⟨s', none⟩ ∧
      GetCandidateByPubKey s' pk = some v' ∧ v'.Active = "N" ∧
      s'.punishHistory = s.punishHistory ++
        [{ PubKey := pk, SlashingRatio := 0, SlashAmount := 0,
           Reason := "Absent for up to 12 consecutive blocks", CreatedAt := env.now }] := by
  obtain ⟨s', h1, h2, _, h4⟩ := RemoveValidator_spec env pk s v hv
  exact ⟨s', _, h1, h4, rfl, h2⟩

/-- C11 on the scenario state: removing validator 1 of `s0`. -/
theorem C11_RemoveValidator_witness :
    ∃ s' v', RemoveValidator env0 1 s0 = ⟨s', none⟩ ∧
      GetCandidateByPubKey s' 1 = some v' ∧ v'.Active = "N" ∧
      s'.punishHistory = [⟨1, 0, 0, "Absent for up to 12 consecutive blocks", 77⟩] :=
  C11_RemoveValidator env0 1 s0 ⟨1, 11, 160, "Y", 0⟩ (by decide)

/-- C12: each of `slash`, `RemoveValidator`, `SlashByzantineValidator` and
`SlashBadProposer` returns, returns the validator-not-found error exactly when the
public key does not resolve to a validator, and when it returns that error the
state (registry, ledger, log) is the state it was given. -/
theorem C12_not_found (env : Env) (pk : PubKey) (reason : String) (ratio : ℚ) (s : State) :
    (∃ r, slash env pk reason ratio s = some r ∧
      (r.err = some Error.ErrBadValidatorAddr ↔ GetCandidateByPubKey s pk = none) ∧
      (r.err = some Error.ErrBadValidatorAddr → r.state = s)) ∧
    (((RemoveValidator env pk s).err = some Error.ErrBadValidatorAddr ↔
        GetCandidateByPubKey s pk = none) ∧
      ((RemoveValidator env pk s).err = some Error.ErrBadValidatorAddr →
        (RemoveValidator env pk s).state = s)) ∧
    (∃ r, SlashByzantineValidator env pk s = some r ∧
      (r.err = some Error.ErrBadValidatorAddr ↔ GetCandidateByPubKey s pk = none) ∧
      (r.err = some Error.ErrBadValidatorAddr → r.state = s)) ∧
    (∃ r, SlashBadProposer env pk s = some r ∧
      (r.err = some Error.ErrBadValidatorAddr ↔ GetCandidateByPubKey s pk = none) ∧
      (r.err = some Error.ErrBadValidatorAddr → r.state = s)) := by
  have hslash : ∀ reason ratio, ∃ r, slash env pk reason ratio s = some r ∧
      (r.err = some Error.ErrBadValidatorAddr ↔ GetCandidateByPubKey s pk = none) ∧
      (r.err = some Error.ErrBadValidatorAddr → r.state = s) := by
    intro reason ratio
    rcases slash_cases env pk reason ratio s with
      ⟨h0, h1⟩ | ⟨v, h0, _, h1⟩ | ⟨v, s', v', h0, _, h1, _⟩
    · exact ⟨_, h1, ⟨fun _ => h0, fun _ => rfl⟩, fun _ => rfl⟩
    · refine ⟨_, h1, ⟨(fun h => by cases h), fun h => ?_⟩, fun _ => rfl⟩
      rw [h0] at h; cases h
    · refine ⟨_, h1, ⟨(fun h => by cases h), fun h => ?_⟩, fun h => by cases h⟩
      rw [h0] at h; cases h
  refine ⟨hslash reason ratio, ?_, hslash _ _, ?_⟩
  · rcases RemoveValidator_cases env pk s with ⟨h0, h1⟩ | ⟨v, s', h0, h1, _⟩
    · rw [h1]
      exact ⟨⟨fun _ => h0, fun _ => rfl⟩, fun _ => rfl⟩
    · rw [h1]
      refine ⟨⟨(fun h => by cases h), fun h => ?_⟩, fun h => by cases h⟩
      rw [h0] at h; cases h
  · rcases slash_cases env pk "Bad block proposer"
        (env.SlashingRatio * (env.MaxSlashingBlocks : ℚ)) s with
      ⟨h0, h1⟩ | ⟨v, h0, _, h1⟩ | ⟨v, s', v', h0, _, h1, _, h3, _⟩
    · refine ⟨⟨s, some Error.ErrBadValidatorAddr⟩, ?_, ⟨fun _ => h0, fun _ => rfl⟩, fun _ => rfl⟩
      simp only [SlashBadProposer, h1]
      simp
    · obtain ⟨s2, hrem, _⟩ := RemoveValidator_spec env pk s v h0
      refine ⟨⟨s2, none⟩, ?_, ⟨(fun h => by cases h), fun h => ?_⟩, fun h => by cases h⟩
      · simp only [SlashBadProposer, h1, hrem]
        simp
      · rw [h0] at h; cases h
    · obtain ⟨s2, hrem, _⟩ := RemoveValidator_spec env pk s' v' h3
      refine ⟨⟨s2, none⟩, ?_, ⟨(fun h => by cases h), fun h => ?_⟩, fun h => by cases h⟩
      · simp only [SlashBadProposer, h1, hrem]
        simp
      · rw [h0] at h; cases h

/-- C12 on an unknown key: each operation on key 9 of `s0` returns the error and
the state `s0`. -/
theorem C12_not_found_witness :
    slash env0 9 "Byzantine validator" (1 / 10) s0 = some ⟨s0, some Error.ErrBadValidatorAddr⟩ ∧
    RemoveValidator env0 9 s0 = ⟨s0, some Error.ErrBadValidatorAddr⟩ ∧
    SlashByzantineValidator env0 9 s0 = some ⟨s0, some Error.ErrBadValidatorAddr⟩ ∧
    SlashBadProposer env0 9 s0 = some ⟨s0, some Error.ErrBadValidatorAddr⟩ := by
  obtain ⟨⟨r1, a1, b1, c1⟩, ⟨b2, c2⟩, ⟨r3, a3, b3, c3⟩, ⟨r4, a4, b4, c4⟩⟩ :=
    C12_not_found env0 9 "Byzantine validator" (1 / 10) s0
  have hn : GetCandidateByPubKey s0 9 = none := by decide
  refine ⟨?_, ?_, ?_, ?_⟩
  · rw [a1]
    have e := b1.mpr hn
    have st := c1 e
    cases r1
    simp only at e st
    rw [e, st]
  · have e := b2.mpr hn
    have st := c2 e
    cases hr : RemoveValidator env0 9 s0
    rw [hr] at e st
    simp only at e st
    rw [e, st]
  · rw [a3]
    have e := b3.mpr hn
    have st := c3 e
    cases r3
    simp only at e st
    rw [e, st]
  · rw [a4]
    have e := b4.mpr hn
    have st := c4 e
    cases r4
    simp only at e st
    rw [e, st]

/-- C13, as stated, fails: after `SlashByzantineValidator` on the active validator 1
of `s0` the registry holds it with shares 144 and active flag `"Y"`, not `"N"`. -/
theorem C13_counterexample :
    (SlashByzantineValidator env0 1 s0).map (fun r => GetCandidateByPubKey r.state 1) =
      some (some ⟨1, 11, 144, "Y", 77⟩) ∧
    (SlashByzantineValidator env0 1 s0).map (fun r => isInactive r.state 1) = some false ∧
    GetCandidateByPubKey s0 1 = some ⟨1, 11, 160, "Y", 0⟩ := by
  refine ⟨?_, ?_, by decide⟩
  · simp [SlashByzantineValidator, env0, s0, slash, slashLoop, slashDelegator,
      GetCandidateByPubKey, GetCandidateByAddress, GetDelegationsByPubKey, updateCandidate,
      UpdateDelegation, savePunishHistory, HexToAddress,
      Candidate.ParseShares, Candidate.AddShares, Delegation.Shares, Delegation.AddSlashAmount,
      mulRatFloor]
  · simp [SlashByzantineValidator, env0, s0, slash, slashLoop, slashDelegator, isInactive,
      GetCandidateByPubKey, GetCandidateByAddress, GetDelegationsByPubKey, updateCandidate,
      UpdateDelegation, savePunishHistory, HexToAddress,
      Candidate.ParseShares, Candidate.AddShares, Delegation.Shares, Delegation.AddSlashAmount,
      mulRatFloor]

/-- C13 (amended): for every existing validator, `SlashByzantineValidator` is exactly
`slash pubKey "Byzantine validator" baseRatio`: it returns nil and leaves the
validator's active flag as it was, so an active validator is still active after
byzantine evidence. For a validator with positive shares the log gains exactly one
record, with its key, the base ratio and the reason "Byzantine validator" (no
removal record), its shares drop by the sum of the deductions when it resolves
identically by key and by owner address, and in a ledger with distinct identities
each of its delegations is slashed at the base ratio; for a validator with shares
`≤ 0` the state is unchanged. -/
theorem C13_byzantine_keeps_flag (env : Env) (pk : PubKey) (s : State) (v : Candidate)
    (hv : GetCandidateByPubKey s pk = some v) :
    SlashByzantineValidator env pk s = slash env pk "Byzantine validator" env.SlashingRatio s ∧
    ∃ s' v', SlashByzantineValidator env pk s = some ⟨s', none⟩ ∧
      GetCandidateByPubKey s' pk = some v' ∧ v'.Active = v.Active ∧
      (0 < v.ParseShares →
        (∃ p, s'.punishHistory = s.punishHistory ++ [p] ∧ p.PubKey = pk ∧
          p.SlashingRatio = env.SlashingRatio ∧ p.Reason = "Byzantine validator") ∧
        (GetCandidateByAddress s (HexToAddress v.OwnerAddress) = some v →
          v'.Shares = v.Shares -
            (deductions env env.SlashingRatio (GetDelegationsByPubKey s pk)).sum) ∧
        ((s.delegations.map Delegation.key).Nodup →
          s'.delegations = s.delegations.map (fun d =>
            if d.PubKey = pk then slashedDelegation env env.SlashingRatio d else d))) ∧
      (v.ParseShares ≤ 0 → s' = s) := by
  refine ⟨rfl, ?_⟩
  unfold SlashByzantineValidator
  by_cases hpos : 0 < v.ParseShares
  · obtain ⟨s', v', h1, h2, h3, _, h5, h6, h7⟩ :=
      slash_pos env pk "Byzantine validator" env.SlashingRatio s v hv hpos
    exact ⟨s', v', h1, h3, h5,
      fun _ => ⟨⟨slashRecord env pk "Byzantine validator" env.SlashingRatio 0, h2, rfl, rfl, rfl⟩,
        h6, h7⟩,
      fun hle => absurd hpos (not_lt.mpr hle)⟩
  · exact ⟨s, v, slash_nonpos env pk _ _ s v hv (not_lt.mp hpos), hv, rfl,
      fun h => absurd h hpos, fun _ => rfl⟩

/-- C13 (amended) on the scenario state: validator 1 of `s0` is active before and
after, its delegations end with shares 90, 45, 9, its shares with 144, and the log
with one record of ratio 1/10. -/
theorem C13_byzantine_keeps_flag_witness :
    ∃ s' v', SlashByzantineValidator env0 1 s0 = some ⟨s', none⟩ ∧
      GetCandidateByPubKey s' 1 = some v' ∧ v'.Active = "Y" ∧
      (∃ p, s'.punishHistory = [p] ∧ p.PubKey = 1 ∧ p.SlashingRatio = 1 / 10 ∧
        p.Reason = "Byzantine validator") ∧
      v'.Shares = 144 ∧
      s'.delegations =
        [⟨11, 1, 90, 10, 77⟩, ⟨31, 1, 45, 5, 77⟩, ⟨32, 2, 40, 0, 0⟩, ⟨33, 1, 9, 1, 77⟩] := by
  obtain ⟨s', v', h1, h2, h3, h4, _⟩ :=
    (C13_byzantine_keeps_flag env0 1 s0 ⟨1, 11, 160, "Y", 0⟩ (by decide)).2
  obtain ⟨hp, hsh, hdel⟩ := h4 (by decide)
  refine ⟨s', v', h1, h2, h3, hp, ?_, ?_⟩
  · rw [hsh (by decide)]
    simp [deductions, GetDelegationsByPubKey, s0, env0, mulRatFloor, Delegation.Shares]
  · rw [hdel (by decide)]
    simp [s0, env0, mulRatFloor, slashedDelegation, Delegation.AddSlashAmount, Delegation.Shares]

/-- C15: the punishment log is append-only under every operation: `slash`,
`RemoveValidator`, `SlashByzantineValidator`, `SlashAbsentValidator` and
`SlashBadProposer` each return a state whose log starts with the log before the
call; and `slash` on an existing validator with positive shares returns nil and
appends exactly one record, carrying the given public key, ratio and reason. -/
theorem C15_log_append_only (env : Env) (pk : PubKey) (reason : String) (ratio : ℚ)
    (absence : Absence) (s : State) :
    (∃ r, slash env pk reason ratio s = some r ∧
      s.punishHistory <+: r.state.punishHistory) ∧
    (s.punishHistory <+: (RemoveValidator env pk s).state.punishHistory) ∧
    (∃ r, SlashByzantineValidator env pk s = some r ∧
      s.punishHistory <+: r.state.punishHistory) ∧
    (∃ r, SlashAbsentValidator env pk absence s = some r ∧
      s.punishHistory <+: r.state.punishHistory) ∧
    (∃ r, SlashBadProposer env pk s = some r ∧
      s.punishHistory <+: r.state.punishHistory) ∧
    (∀ v, GetCandidateByPubKey s pk = some v → 0 < v.ParseShares →
      ∃ s' p, slash env pk reason ratio s = some ⟨s', none⟩ ∧
        s'.punishHistory = s.punishHistory ++ [p] ∧
        p.PubKey = pk ∧ p.SlashingRatio = ratio ∧ p.Reason = reason) := by
  refine ⟨?_, RemoveValidator_log_grows env pk s, ?_, ?_, ?_, ?_⟩
  · obtain ⟨r, hr⟩ := slash_returns env pk reason ratio s
    exact ⟨r, hr, slash_log_grows env pk reason ratio s r hr⟩
  · obtain ⟨r, hr⟩ := slash_returns env pk "Byzantine validator" env.SlashingRatio s
    exact ⟨r, hr, slash_log_grows env pk _ _ s r hr⟩
  · rcases SlashAbsentValidator_cases env pk absence s with
      ⟨_, h⟩ | ⟨_, r1, h1, h⟩ | ⟨_, r1, h1, h⟩
    · exact ⟨_, h, List.prefix_refl _⟩
    · exact ⟨_, h, slash_log_grows env pk _ _ s r1 h1⟩
    · exact ⟨_, h, (slash_log_grows env pk _ _ s r1 h1).trans
        (RemoveValidator_log_grows env pk r1.state)⟩
  · obtain ⟨r1, h1, hb⟩ := SlashBadProposer_cases env pk s
    rcases hb with ⟨_, h⟩ | ⟨_, h⟩
    · exact ⟨_, h, slash_log_grows env pk _ _ s r1 h1⟩
    · exact ⟨_, h, (slash_log_grows env pk _ _ s r1 h1).trans
        (RemoveValidator_log_grows env pk r1.state)⟩
  · intro v hv hpos
    obtain ⟨s', _, h1, h2, _⟩ := slash_pos env pk reason ratio s v hv hpos
    exact ⟨s', _, h1, h2, rfl, rfl, rfl⟩

/-- C15 on the state `sDown`, whose log already holds one record: slashing
validator 2 (shares 40) keeps that record first and appends one record for key 2. -/
theorem C15_log_append_only_witness :
    ∃ s' p, slash env0 2 "Byzantine validator" (1 / 10) sDown = some ⟨s', none⟩ ∧
      s'.punishHistory = sDown.punishHistory ++ [p] ∧
      p.PubKey = 2 ∧ p.SlashingRatio = 1 / 10 ∧ p.Reason = "Byzantine validator" :=
  (C15_log_append_only env0 2 "Byzantine validator" (1 / 10) ⟨1, 1⟩ sDown).2.2.2.2.2
    ⟨2, 22, 40, "Y", 0⟩ (by decide) (by decide)

/-- C16: inactive is terminal: when the registry resolves `pkV` to an inactive
validator, then after each of `slash`, `RemoveValidator`,
`SlashByzantineValidator`, `SlashAbsentValidator` and `SlashBadProposer`, applied
to any public key, the operation has returned and `pkV` still resolves to an
inactive validator. -/
theorem C16_inactive_terminal (env : Env) (pk pkV : PubKey) (reason : String) (ratio : ℚ)
    (absence : Absence) (s : State) (hV : isInactive s pkV = true) :
    (∃ r, slash env pk reason ratio s = some r ∧ isInactive r.state pkV = true) ∧
    isInactive (RemoveValidator env pk s).state pkV = true ∧
    (∃ r, SlashByzantineValidator env pk s = some r ∧ isInactive r.state pkV = true) ∧
    (∃ r, SlashAbsentValidator env pk absence s = some r ∧ isInactive r.state pkV = true) ∧
    (∃ r, SlashBadProposer env pk s = some r ∧ isInactive r.state pkV = true) := by
  refine ⟨?_, RemoveValidator_isInactive env pk s pkV hV, ?_, ?_, ?_⟩
  · obtain ⟨r, hr⟩ := slash_returns env pk reason ratio s
    exact ⟨r, hr, slash_isInactive env pk reason ratio s r hr pkV hV⟩
  · obtain ⟨r, hr⟩ := slash_returns env pk "Byzantine validator" env.SlashingRatio s
    exact ⟨r, hr, slash_isInactive env pk _ _ s r hr pkV hV⟩
  · rcases SlashAbsentValidator_cases env pk absence s with
      ⟨_, h⟩ | ⟨_, r1, h1, h⟩ | ⟨_, r1, h1, h⟩
    · exact ⟨_, h, hV⟩
    · exact ⟨_, h, slash_isInactive env pk _ _ s r1 h1 pkV hV⟩
    · exact ⟨_, h, RemoveValidator_isInactive env pk r1.state pkV
        (slash_isInactive env pk _ _ s r1 h1 pkV hV)⟩
  · obtain ⟨r1, h1, hb⟩ := SlashBadProposer_cases env pk s
    rcases hb with ⟨_, h⟩ | ⟨_, h⟩
    · exact ⟨_, h, slash_isInactive env pk _ _ s r1 h1 pkV hV⟩
    · exact ⟨_, h, RemoveValidator_isInactive env pk r1.state pkV
        (slash_isInactive env pk _ _ s r1 h1 pkV hV)⟩

/-- C16 on the state `sDown`, where validator 1 is inactive: it is still inactive
after each operation applied to its own key. -/
theorem C16_inactive_terminal_witness :
    (∃ r, slash env0 1 "Byzantine validator" (1 / 10) sDown = some r ∧
      isInactive r.state 1 = true) ∧
    isInactive (RemoveValidator env0 1 sDown).state 1 = true ∧
    (∃ r, SlashByzantineValidator env0 1 sDown = some r ∧ isInactive r.state 1 = true) ∧
    (∃ r, SlashAbsentValidator env0 1 ⟨12, 9⟩ sDown = some r ∧ isInactive r.state 1 = true) ∧
    (∃ r, SlashBadProposer env0 1 sDown = some r ∧ isInactive r.state 1 = true) :=
  C16_inactive_terminal env0 1 1 "Byzantine validator" (1 / 10) ⟨12, 9⟩ sDown (by decide)

/-- C17: for every public key, resolving or not, and every absence whose count is
strictly above `MaxSlashingBlocks`, `SlashAbsentValidator` returns nil and the
state it was given: registry, ledger and log are unchanged. -/
theorem C17_absent_above_max (env : Env) (pk : PubKey) (absence : Absence) (s : State)
    (hgt : env.MaxSlashingBlocks < absence.GetCount) :
    SlashAbsentValidator env pk absence s = some ⟨s, none⟩ := by
  simp only [SlashAbsentValidator, if_neg (not_le.mpr hgt), if_neg (ne_of_gt hgt)]

/-- C17 at count 13 above the maximum 12, on a resolving key and on an unknown key. -/
theorem C17_absent_above_max_witness :
    SlashAbsentValidator env0 1 ⟨13, 9⟩ s0 = some ⟨s0, none⟩ ∧
    SlashAbsentValidator env0 9 ⟨13, 9⟩ s0 = some ⟨s0, none⟩ :=
  ⟨C17_absent_above_max env0 1 ⟨13, 9⟩ s0 (by decide),
   C17_absent_above_max env0 9 ⟨13, 9⟩ s0 (by decide)⟩

/-- C20: for every existing validator, `RemoveValidator` leaves the delegation
ledger as it was, leaves the total shares of every validator the registry resolves
as they were, and leaves every validator other than the target entirely as it was
(active flag included). -/
theorem C20_RemoveValidator_frame (env : Env) (pk : PubKey) (s : State) (v : Candidate)
    (hv : GetCandidateByPubKey s pk = some v) :
    (RemoveValidator env pk s).state.delegations = s.delegations ∧
    ∀ pkV V, GetCandidateByPubKey s pkV = some V →
      ∃ V', GetCandidateByPubKey (RemoveValidator env pk s).state pkV = some V' ∧
        V'.Shares = V.Shares ∧ (pkV ≠ pk → V' = V) := by
  constructor
  · obtain ⟨s', h1, _, h3, _⟩ := RemoveValidator_spec env pk s v hv
    rw [h1]
    exact h3
  · intro pkV V hV
    obtain ⟨V', h1, h2, _, h4⟩ := RemoveValidator_lookup env pk s pkV V hV
    exact ⟨V', h1, h2, h4⟩

/-- C20 on the scenario state: removing validator 1 of `s0` keeps the ledger, keeps
the shares 160 of validator 1, and keeps validator 2 as it was. -/
theorem C20_RemoveValidator_frame_witness :
    (RemoveValidator env0 1 s0).state.delegations = s0.delegations ∧
    (∃ V', GetCandidateByPubKey (RemoveValidator env0 1 s0).state 1 = some V' ∧
      V'.Shares = 160) ∧
    GetCandidateByPubKey (RemoveValidator env0 1 s0).state 2 = some ⟨2, 22, 40, "Y", 0⟩ := by
  have h := C20_RemoveValidator_frame env0 1 s0 ⟨1, 11, 160, "Y", 0⟩ (by decide)
  obtain ⟨V1, a1, b1, _⟩ := h.2 1 ⟨1, 11, 160, "Y", 0⟩ (by decide)
  obtain ⟨V2, a2, _, c2⟩ := h.2 2 ⟨2, 22, 40, "Y", 0⟩ (by decide)
  refine ⟨h.1, ⟨V1, a1, b1⟩, ?_⟩
  rw [a2, c2 (by decide)]

/-! ## Absence tracker: the per-height protocol -/

/-- Running one more height: the rounds so far, then `Add` for each key of the new
round and `Clear`, both at the next height. -/
theorem runRounds_append_singleton (rs : List (List PubKey)) :
    ∀ (av : AbsentValidators) (h : Int) (r : List PubKey),
      runRounds av h (rs ++ [r]) =
        ((runRounds av h rs).AddAll r (h + rs.length)).Clear (h + rs.length) := by
  induction rs with
  | nil =>
    intro av h r
    simp [runRounds]
  | cons x xs ih =>
    intro av h r
    have e : h + 1 + (xs.length : Int) = h + ((xs.length + 1 : Nat) : Int) := by
      push_cast; ring
    rw [List.cons_append]
    simp only [runRounds, List.length_cons]
    rw [ih, e]

/-- The streak of a key after one more round. -/
theorem streak_append_singleton (k : PubKey) (rs : List (List PubKey)) (r : List PubKey) :
    streak k (rs ++ [r]) = if k ∈ r then streak k rs + 1 else 0 := by
  unfold streak
  rw [List.reverse_append, List.reverse_singleton, List.singleton_append, List.takeWhile_cons]
  by_cases hk : k ∈ r
  · simp [hk]
  · simp [hk]

/-- Incrementing an `int16` that holds a reduced integer reduces the successor. -/
theorem wrapInt16_succ (n : Int) : wrapInt16 (wrapInt16 n + 1) = wrapInt16 (n + 1) := by
  unfold wrapInt16
  omega

/-- The entry `Clear` leaves under a key. -/
theorem Clear_apply (av : AbsentValidators) (h : Int) (k : PubKey) :
    (av.Clear h).Validators k =
      match av.Validators k with
      | none => none
      | some v => if v.lastBlockHeight ≠ h then none else some v := rfl

/-- Invariant of the protocol from an empty tracker: after the rounds, a key is
tracked exactly when its streak is positive, with the reduced streak as count and
the last height as stored height. -/
theorem runRounds_inv (h0 : Int) (hlo : -2 ^ 63 ≤ h0) (rs : List (List PubKey)) :
    (∀ x ∈ rs, x.Nodup) → h0 + rs.length ≤ 2 ^ 63 → ∀ k,
      (runRounds NewAbsentValidators h0 rs).Validators k =
        if streak k rs = 0 then none
        else some ⟨wrapInt16 (streak k rs), h0 + rs.length - 1⟩ := by
  induction rs using List.reverseRecOn with
  | nil =>
    intro _ _ k
    simp [runRounds, streak, NewAbsentValidators]
  | append_singleton rs r ih =>
    intro hnd hhi k
    have hlen : ((rs ++ [r]).length : Int) = rs.length + 1 := by simp
    rw [hlen] at hhi
    have hnd' : ∀ x ∈ rs, x.Nodup := fun x hx => hnd x (List.mem_append_left _ hx)
    have hr : r.Nodup := hnd r (by simp)
    have ihk := ih hnd' (by omega) k
    rw [runRounds_append_singleton, Clear_apply, streak_append_singleton, hlen]
    by_cases hk : k ∈ r
    · rw [AddAll_mem r _ _ k hr hk, Add_same, ihk, if_pos hk]
      by_cases hs : streak k rs = 0
      · simp [hs, wrapInt16]
        omega
      · have e64 : wrapInt64 (h0 + ↑rs.length - 1 + 1) = h0 + ↑rs.length := by
          rw [show h0 + (rs.length : Int) - 1 + 1 = h0 + rs.length by ring]
          exact wrapInt64_of_range _ (by omega) (by omega)
        simp only [hs, if_false, Absence.Accumulate, e64, wrapInt16_succ]
        simp
        omega
    · rw [AddAll_not_mem r _ _ k hk, ihk, if_neg hk]
      by_cases hs : streak k rs = 0
      · simp [hs]
      · simp [hs]

/-- C18: under the per-height protocol from an empty tracker (heights `h0`,
`h0 + 1`, ... processed in order, every key added at most once per height, `Clear`
after the adds of each height), after `Clear` at the last height `h` the tracked
keys are exactly the keys added at `h`, each entry has `lastBlockHeight = h`, and
its count is the number of consecutive heights ending at `h` at which the key was
added, as long as that number is below `2 ^ 15`. -/
theorem C18_protocol (h0 : Int) (rounds : List (List PubKey)) (r : List PubKey) (k : PubKey)
    (hnd : ∀ x ∈ rounds ++ [r], x.Nodup) (hlo : -2 ^ 63 ≤ h0)
    (hhi : h0 + rounds.length < 2 ^ 63) :
    ((runRounds NewAbsentValidators h0 (rounds ++ [r])).Contains k = true ↔ k ∈ r) ∧
    ∀ a, (runRounds NewAbsentValidators h0 (rounds ++ [r])).Validators k = some a →
      a.lastBlockHeight = h0 + rounds.length ∧
      (streak k (rounds ++ [r]) < 2 ^ 15 → a.count = streak k (rounds ++ [r])) := by
  have hlen : ((rounds ++ [r]).length : Int) = rounds.length + 1 := by simp
  have hinv := runRounds_inv h0 hlo (rounds ++ [r]) hnd (by rw [hlen]; omega) k
  have hst := streak_append_singleton k rounds r
  constructor
  · rw [Contains_iff, hinv, hst]
    by_cases hk : k ∈ r
    · simp [hk]
    · simp [hk]
  · intro a ha
    rw [hinv] at ha
    by_cases hs : streak k (rounds ++ [r]) = 0
    · rw [if_pos hs] at ha; cases ha
    · rw [if_neg hs] at ha
      have ha' := (Option.some.inj ha).symm
      rw [ha']
      refine ⟨by simp only [hlen]; ring, fun hlt => ?_⟩
      exact wrapInt16_of_range _ (by omega) (by exact_mod_cast hlt)

/-- C18 on a run of three heights 10, 11, 12 with rounds `[1, 2]`, `[1]`, `[1, 3]`:
after the last `Clear` key 1 has count 3, key 3 has count 1, both at height 12, and
key 2 is untracked. -/
theorem C18_protocol_witness :
    (runRounds NewAbsentValidators 10 [[1, 2], [1], [1, 3]]).Validators 1 = some ⟨3, 12⟩ ∧
    (runRounds NewAbsentValidators 10 [[1, 2], [1], [1, 3]]).Validators 3 = some ⟨1, 12⟩ ∧
    ((runRounds NewAbsentValidators 10 [[1, 2], [1], [1, 3]]).Contains 2 = true ↔
      2 ∈ [1, 3]) := by
  have hnd : ∀ x ∈ [[1, 2], [1]] ++ [[1, 3]], List.Nodup x := by decide
  have h1 := C18_protocol 10 [[1, 2], [1]] [1, 3] 1 hnd (by decide) (by decide)
  have h3 := C18_protocol 10 [[1, 2], [1]] [1, 3] 3 hnd (by decide) (by decide)
  have h2 := C18_protocol 10 [[1, 2], [1]] [1, 3] 2 hnd (by decide) (by decide)
  refine ⟨?_, ?_, h2.1⟩
  · obtain ⟨a, ha⟩ := (Contains_iff _ _).mp (h1.1.mpr (by decide))
    have hb := h1.2 a ha
    have hc := hb.2 (by decide)
    rw [show ([[1, 2], [1], [1, 3]] : List (List PubKey)) = [[1, 2], [1]] ++ [[1, 3]] from rfl,
      ha]
    cases a
    simp only at hb hc
    rw [hb.1, hc]
    rfl
  · obtain ⟨a, ha⟩ := (Contains_iff _ _).mp (h3.1.mpr (by decide))
    have hb := h3.2 a ha
    have hc := hb.2 (by decide)
    rw [show ([[1, 2], [1], [1, 3]] : List (List PubKey)) = [[1, 2], [1]] ++ [[1, 3]] from rfl,
      ha]
    cases a
    simp only at hb hc
    rw [hb.1, hc]
    rfl

/-! ## Slashing engine: order of enumeration and stake consistency -/

/-- Two states with the same registry, ledger and log are the same state. -/
theorem State_eq_of (a b : State) (h1 : a.candidates = b.candidates)
    (h2 : a.delegations = b.delegations) (h3 : a.punishHistory = b.punishHistory) : a = b := by
  cases a; cases b
  simp only at h1 h2 h3
  rw [h1, h2, h3]

/-- The registry the loop of `slash` leaves: when the address resolves to `val`, the
records identified like `val` become `val` with its shares lowered by the sum of the
deductions; with no delegation to visit the registry is untouched. -/
theorem slashLoop_candidates (env : Env) (ratio : ℚ) (a : Address) :
    ∀ (ds : List Delegation) (s : State) (t : Int) (val : Candidate),
      GetCandidateByAddress s a = some val →
      ∃ s', slashLoop env ratio a ds s t = some (s', t) ∧
        s'.punishHistory = s.punishHistory ∧
        s'.candidates =
          if ds = [] then s.candidates
          else s.candidates.map (fun e =>
            if e.PubKey = val.PubKey ∧ e.OwnerAddress = val.OwnerAddress
            then debited env val (deductions env ratio ds).sum else e) := by
  intro ds
  induction ds with
  | nil =>
    intro s t val _
    exact ⟨s, by simp [slashLoop, deductions], rfl, by simp⟩
  | cons d ds ih =>
    intro s t val hval
    have hstep := slashDelegator_eq env d a (env.MulRat d.Shares ratio) s val hval
    have hval1 : ({ val.AddShares (-(env.MulRat d.Shares ratio)) with
        UpdatedAt := env.now } : Candidate) = debited env val (env.MulRat d.Shares ratio) := by
      simp only [Candidate.AddShares, debited]
      congr 1
    rw [hval1] at hstep
    have hadr1 : GetCandidateByAddress (updateCandidate
        (UpdateDelegation s
          { d.AddSlashAmount (env.MulRat d.Shares ratio) with UpdatedAt := env.now })
        (debited env val (env.MulRat d.Shares ratio))) a =
        some (debited env val (env.MulRat d.Shares ratio)) := by
      rw [GetCandidateByAddress_update]
      have : GetCandidateByAddress
          (UpdateDelegation s
            { d.AddSlashAmount (env.MulRat d.Shares ratio) with UpdatedAt := env.now })
          a = some val := hval
      rw [this]
      simp [debited]
    obtain ⟨s', hloop, hph, hc⟩ := ih _ t _ hadr1
    refine ⟨s', ?_, ?_, ?_⟩
    · simp only [slashLoop, hstep, hloop]
    · rw [hph]; rfl
    · rw [hc, if_neg (List.cons_ne_nil d ds)]
      by_cases hds : ds = []
      · rw [if_pos hds]
        subst hds
        simp [updateCandidate, UpdateDelegation, deductions]
        intro e _
        rfl
      · rw [if_neg hds]
        simp only [updateCandidate, UpdateDelegation, List.map_map]
        apply List.map_congr_left
        intro e _
        by_cases hk : e.PubKey = val.PubKey ∧ e.OwnerAddress = val.OwnerAddress
        · have hk' : e.PubKey = (debited env val (env.MulRat d.Shares ratio)).PubKey ∧
              e.OwnerAddress = (debited env val (env.MulRat d.Shares ratio)).OwnerAddress := hk
          simp only [Function.comp, if_pos hk, if_pos hk']
          simp only [debited, true_and, if_true, deductions, List.map_cons, List.sum_cons,
            and_self]
          congr 1
          ring
        · have hk' : ¬ (e.PubKey = (debited env val (env.MulRat d.Shares ratio)).PubKey ∧
              e.OwnerAddress = (debited env val (env.MulRat d.Shares ratio)).OwnerAddress) := hk
          simp only [Function.comp, if_neg hk, if_neg hk']

/-- In a ledger with distinct identities, one pass that looks each entry up in any
enumeration of the validator's delegations slashes exactly those delegations. -/
theorem map_find_slashed (env : Env) (ratio : ℚ) (pk : PubKey) (L ds : List Delegation)
    (hnd : (L.map Delegation.key).Nodup)
    (hmem : ∀ d, d ∈ ds ↔ d ∈ L ∧ d.PubKey = pk) :
    L.map (fun e =>
      ((ds.find? (fun d => decide (d.key = e.key))).map (slashedDelegation env ratio)).getD e) =
    L.map (fun e => if e.PubKey = pk then slashedDelegation env ratio e else e) := by
  apply List.map_congr_left
  intro e he
  by_cases hpk : e.PubKey = pk
  · rw [if_pos hpk]
    have hmem' : e ∈ ds := (hmem e).mpr ⟨he, hpk⟩
    obtain ⟨d, hd⟩ := Option.isSome_iff_exists.mp
      ((List.find?_isSome (p := fun d => decide (d.key = e.key))).mpr ⟨e, hmem', by simp⟩)
    have hdk : d.key = e.key := by simpa using List.find?_some hd
    have hdL : d ∈ L := ((hmem d).mp (List.mem_of_find?_eq_some hd)).1
    have hde : d = e := List.inj_on_of_nodup_map hnd hdL he hdk
    rw [hd, hde]
    rfl
  · rw [if_neg hpk]
    have hnone : ds.find? (fun d => decide (d.key = e.key)) = none := by
      rw [List.find?_eq_none]
      intro d hd hk
      have h1 : d.PubKey = pk := ((hmem d).mp hd).2
      have h2 : d.key = e.key := by simpa using hk
      apply hpk
      rw [← h1]
      exact (congrArg Prod.snd h2).symm
    rw [hnone]
    rfl

/-- The loop of `slash` over any enumeration of the validator's delegations ends in
the state and total it ends in over the ledger's own enumeration. -/
theorem slashLoop_perm (env : Env) (ratio : ℚ) (a : Address) (pk : PubKey) (s : State)
    (val : Candidate) (hval : GetCandidateByAddress s a = some val)
    (hnd : (s.delegations.map Delegation.key).Nodup) (ds : List Delegation)
    (hperm : ds.Perm (GetDelegationsByPubKey s pk)) :
    slashLoop env ratio a ds s 0 = slashLoop env ratio a (GetDelegationsByPubKey s pk) s 0 := by
  obtain ⟨s1, h1, p1, c1⟩ := slashLoop_candidates env ratio a ds s 0 val hval
  obtain ⟨s2, h2, p2, c2⟩ :=
    slashLoop_candidates env ratio a (GetDelegationsByPubKey s pk) s 0 val hval
  have hsum : (deductions env ratio ds).sum =
      (deductions env ratio (GetDelegationsByPubKey s pk)).sum := by
    unfold deductions
    exact (hperm.map (fun d : Delegation => env.MulRat d.Shares ratio)).sum_eq
  have hnil : ds = [] ↔ GetDelegationsByPubKey s pk = [] :=
    ⟨fun h => by rw [h] at hperm; exact hperm.symm.eq_nil,
     fun h => by rw [h] at hperm; exact hperm.eq_nil⟩
  have hsub : (GetDelegationsByPubKey s pk).Sublist s.delegations := List.filter_sublist _
  have hnd0 : ((GetDelegationsByPubKey s pk).map Delegation.key).Nodup :=
    (hsub.map Delegation.key).nodup hnd
  have hnd1 : (ds.map Delegation.key).Nodup := (hperm.map Delegation.key).nodup_iff.mpr hnd0
  have hmem0 : ∀ d, d ∈ GetDelegationsByPubKey s pk ↔ d ∈ s.delegations ∧ d.PubKey = pk := by
    intro d
    simp [GetDelegationsByPubKey, List.mem_filter]
  have hmem1 : ∀ d, d ∈ ds ↔ d ∈ s.delegations ∧ d.PubKey = pk :=
    fun d => (hperm.mem_iff).trans (hmem0 d)
  have d1 : s1.delegations = s.delegations.map
      (fun e => if e.PubKey = pk then slashedDelegation env ratio e else e) := by
    rw [slashLoop_delegations env ratio a ds s 0 s1 _ h1,
      foldl_update_eq_map env ratio ds s.delegations hnd1]
    exact map_find_slashed env ratio pk s.delegations ds hnd hmem1
  have d2 : s2.delegations = s.delegations.map
      (fun e => if e.PubKey = pk then slashedDelegation env ratio e else e) := by
    rw [slashLoop_delegations env ratio a _ s 0 s2 _ h2,
      foldl_update_eq_map env ratio _ s.delegations hnd0]
    exact map_find_slashed env ratio pk s.delegations _ hnd hmem0
  have hs : s1 = s2 := by
    apply State_eq_of
    · rw [c1, c2, hsum]
      by_cases hd : ds = []
      · rw [if_pos hd, if_pos (hnil.mp hd)]
      · rw [if_neg hd, if_neg (fun h => hd (hnil.mpr h))]
    · rw [d1, d2]
    · rw [p1, p2]
  rw [h1, h2, hs]

/-- C14: for every validator with positive shares, every ratio, and a ledger whose
delegations have distinct identities, the result of `slash` does not depend on the
order in which the validator's delegations are enumerated: visiting them in any
permutation of the ledger's enumeration gives the same result as `slash` (same
registry, so the same total shares; same ledger, so each delegation ends with the
same shares and slash-amount; same log, so the same record), and `slash` returns
nil. -/
theorem C14_order_independent (env : Env) (pk : PubKey) (reason : String) (ratio : ℚ)
    (s : State) (v : Candidate) (hv : GetCandidateByPubKey s pk = some v)
    (hpos : 0 < v.ParseShares) (hkeys : (s.delegations.map Delegation.key).Nodup)
    (ds : List Delegation) (hperm : ds.Perm (GetDelegationsByPubKey s pk)) :
    slashInOrder env pk reason ratio ds s = slash env pk reason ratio s ∧
    ∃ s', slash env pk reason ratio s = some ⟨s', none⟩ := by
  have hvpk : v.PubKey = pk := GetCandidateByPubKey_spec s pk v hv
  obtain ⟨val, hval⟩ := find?_exists_of _
    (fun c => decide (c.OwnerAddress = HexToAddress v.OwnerAddress)) _ v hv (by simp [HexToAddress])
  have hval' : GetCandidateByAddress s (HexToAddress v.OwnerAddress) = some val := hval
  constructor
  · simp only [slashInOrder, slash, hv, hvpk, if_neg (not_le.mpr hpos),
      slashLoop_perm env ratio _ pk s val hval' hkeys ds hperm]
  · obtain ⟨s', _, h, _⟩ := slash_pos env pk reason ratio s v hv hpos
    exact ⟨s', h⟩

/-- C14 on the scenario state: visiting the three delegations of validator 1 in
reverse order gives the result of `slash`. -/
theorem C14_order_independent_witness :
    slashInOrder env0 1 "Absent validator" (1 / 10)
        [⟨33, 1, 10, 0, 0⟩, ⟨31, 1, 50, 0, 0⟩, ⟨11, 1, 100, 0, 0⟩] s0 =
      slash env0 1 "Absent validator" (1 / 10) s0 ∧
    ∃ s', slash env0 1 "Absent validator" (1 / 10) s0 = some ⟨s', none⟩ :=
  C14_order_independent env0 1 "Absent validator" (1 / 10) s0 ⟨1, 11, 160, "Y", 0⟩
    (by decide) (by decide) (by decide) _ (by decide)

/-- The truncating product is the floor of the exact product. -/
theorem mulRatFloor_eq_floor (i : Int) (q : ℚ) : mulRatFloor i q = ⌊(i : ℚ) * q⌋ := by
  unfold mulRatFloor
  rw [← Rat.floor_intCast_div_natCast]
  congr 1
  have hq : (q.num : ℚ) / (q.den : ℚ) = q := Rat.num_div_den q
  push_cast
  rw [mul_div_assoc, hq]

/-- The sum of differences is the difference of the sums. -/
theorem sum_map_sub_eq (L : List Delegation) (f g : Delegation → Int) :
    (L.map (fun d => f d - g d)).sum = (L.map f).sum - (L.map g).sum := by
  induction L with
  | nil => simp
  | cons x xs ih =>
    simp only [List.map_cons, List.sum_cons, ih]
    ring

/-- The delegations of a validator after a pass that slashes exactly them. -/
theorem filter_map_slashed (env : Env) (ratio : ℚ) (pk : PubKey) (L : List Delegation) :
    (L.map (fun e => if e.PubKey = pk then slashedDelegation env ratio e else e)).filter
      (fun d => decide (d.PubKey = pk)) =
    (L.filter (fun d => decide (d.PubKey = pk))).map (slashedDelegation env ratio) := by
  induction L with
  | nil => rfl
  | cons x xs ih =>
    by_cases hx : x.PubKey = pk
    · have hx' : (slashedDelegation env ratio x).PubKey = pk := hx
      simp only [List.map_cons, if_pos hx, List.filter_cons, hx', hx, decide_True, if_true, ih]
    · simp only [List.map_cons, if_neg hx, List.filter_cons, hx, decide_False, ih]
      simp [hx]

/-- C19: `slash` preserves stake consistency for ratios in `[0, 1]`. Assume
`MulRat` returns the exact product rounded to a neighbouring integer, the ledger's
delegations have distinct identities, the validator resolves identically by public
key and by owner address, its total shares equal the sum of the shares of its
delegations, every delegation's shares are non-negative, and `0 ≤ ratio ≤ 1`. Then
`slash` returns nil and afterwards the validator's total shares still equal the sum
of its delegations' shares, every delegation's shares are still non-negative, and
the validator's total shares are non-negative. -/
theorem C19_stake_consistency (env : Env) (pk : PubKey) (reason : String) (ratio : ℚ)
    (s : State) (v : Candidate)
    (hround : ∀ (i : Int) (q : ℚ),
      ⌊(i : ℚ) * q⌋ ≤ env.MulRat i q ∧ env.MulRat i q ≤ ⌈(i : ℚ) * q⌉)
    (hkeys : (s.delegations.map Delegation.key).Nodup)
    (hv : GetCandidateByPubKey s pk = some v)
    (hres : GetCandidateByAddress s (HexToAddress v.OwnerAddress) = some v)
    (hsum : v.ParseShares = ((GetDelegationsByPubKey s pk).map Delegation.Shares).sum)
    (hnonneg : ∀ d ∈ s.delegations, 0 ≤ d.Shares)
    (hr0 : 0 ≤ ratio) (hr1 : ratio ≤ 1) :
    ∃ s' v', slash env pk reason ratio s = some ⟨s', none⟩ ∧
      GetCandidateByPubKey s' pk = some v' ∧
      v'.ParseShares = ((GetDelegationsByPubKey s' pk).map Delegation.Shares).sum ∧
      (∀ d ∈ s'.delegations, 0 ≤ d.Shares) ∧
      0 ≤ v'.ParseShares := by
  have hbound : ∀ i : Int, 0 ≤ i → 0 ≤ env.MulRat i ratio ∧ env.MulRat i ratio ≤ i := by
    intro i hi
    have hi' : (0 : ℚ) ≤ (i : ℚ) := by exact_mod_cast hi
    have h0 : (0 : ℚ) ≤ (i : ℚ) * ratio := mul_nonneg hi' hr0
    have h1 : (i : ℚ) * ratio ≤ (i : ℚ) := by
      calc (i : ℚ) * ratio ≤ (i : ℚ) * 1 := mul_le_mul_of_nonneg_left hr1 hi'
        _ = (i : ℚ) := mul_one _
    exact ⟨le_trans (Int.floor_nonneg.mpr h0) (hround i ratio).1,
      le_trans (hround i ratio).2 (Int.ceil_le.mpr h1)⟩
  have hsumnn : 0 ≤ ((GetDelegationsByPubKey s pk).map Delegation.Shares).sum := by
    apply List.sum_nonneg
    intro x hx
    obtain ⟨d, hd, rfl⟩ := List.mem_map.mp hx
    exact hnonneg d (List.mem_filter.mp hd).1
  by_cases hpos : 0 < v.ParseShares
  · obtain ⟨s', v', hslash, _, hpk', _, _, hsh, hdel⟩ :=
      slash_pos env pk reason ratio s v hv hpos
    have hsh' := hsh hres
    have hdel' := hdel hkeys
    have hfil : GetDelegationsByPubKey s' pk =
        (GetDelegationsByPubKey s pk).map (slashedDelegation env ratio) := by
      unfold GetDelegationsByPubKey
      rw [hdel']
      exact filter_map_slashed env ratio pk s.delegations
    have hshares : ((GetDelegationsByPubKey s' pk).map Delegation.Shares).sum =
        ((GetDelegationsByPubKey s pk).map Delegation.Shares).sum -
          (deductions env ratio (GetDelegationsByPubKey s pk)).sum := by
      rw [hfil, List.map_map, deductions,
        ← sum_map_sub_eq (GetDelegationsByPubKey s pk) Delegation.Shares
          (fun d => env.MulRat d.Shares ratio)]
      rfl
    have hall : ∀ d ∈ s'.delegations, 0 ≤ d.Shares := by
      intro d hd
      rw [hdel'] at hd
      obtain ⟨e, he, rfl⟩ := List.mem_map.mp hd
      by_cases hk : e.PubKey = pk
      · rw [if_pos hk]
        have hb := hbound e.Shares (hnonneg e he)
        show 0 ≤ e.shares - env.MulRat e.Shares ratio
        have : e.Shares = e.shares := rfl
        omega
      · rw [if_neg hk]
        exact hnonneg e he
    have heq : v'.ParseShares = ((GetDelegationsByPubKey s' pk).map Delegation.Shares).sum := by
      rw [hshares, ← hsum]
      exact hsh'
    refine ⟨s', v', hslash, hpk', heq, hall, ?_⟩
    rw [heq]
    apply List.sum_nonneg
    intro x hx
    obtain ⟨d, hd, rfl⟩ := List.mem_map.mp hx
    exact hall d (List.mem_filter.mp hd).1
  · have hle : v.ParseShares ≤ 0 := not_lt.mp hpos
    refine ⟨s, v, slash_nonpos env pk reason ratio s v hv hle, hv, hsum, hnonneg, ?_⟩
    rw [hsum]
    exact hsumnn

/-- C19 on the scenario state at ratio 1/10 with the truncating product: validator 1
ends with shares 144, the sum of its delegations' shares 90, 45 and 9. -/
theorem C19_stake_consistency_witness :
    ∃ s' v', slash env0 1 "Absent validator" (1 / 10) s0 = some ⟨s', none⟩ ∧
      GetCandidateByPubKey s' 1 = some v' ∧
      v'.ParseShares = ((GetDelegationsByPubKey s' 1).map Delegation.Shares).sum ∧
      (∀ d ∈ s'.delegations, 0 ≤ d.Shares) ∧
      0 ≤ v'.ParseShares :=
  C19_stake_consistency env0 1 "Absent validator" (1 / 10) s0 ⟨1, 11, 160, "Y", 0⟩
    (fun i q => by
      show ⌊(i : ℚ) * q⌋ ≤ mulRatFloor i q ∧ mulRatFloor i q ≤ ⌈(i : ℚ) * q⌉
      rw [mulRatFloor_eq_floor]
      exact ⟨le_refl _, Int.floor_le_ceil _⟩)
    (by decide) (by decide) (by decide) (by decide) (by decide)
    (by norm_num) (by norm_num)

end Stake
